import Mathlib

/-
  Formal model of the PhantomLightEngine repository (chuyuewei/PhantomLightEngine).

  The math layer (Vector2/Vector4, Matrix3, Matrix4) is transliterated from
  src/Engine/Include/Math/Vector.h, with C++ float replaced by ℚ (exact
  rational arithmetic standing in for IEEE floats; comparisons and the
  1e-6 singularity guard carry over literally).

  The UI layer (RectTransform trees, UIPanel layouts) is declared in
  src/Engine/Include/UI/UISystem.h and UIComponents.h but its member
  function bodies are not part of the repository sources; those
  operations are modelled from the specification (spec.md §4.1-§4.3) and
  are marked "Modelled from the spec:" in their doc comments.
-/

namespace PLE

/-- 2D vector, from Vector.h `class Vector2` (float fields x, y). -/
structure Vector2 where
  x : ℚ
  y : ℚ
deriving DecidableEq, Repr

/-- 4D vector, from Vector.h `class Vector4` (float fields x, y, z, w). -/
structure Vector4 where
  x : ℚ
  y : ℚ
  z : ℚ
  w : ℚ
deriving DecidableEq, Repr

/-- 3x3 matrix, row-major, from Vector.h `class Matrix3` (`std::array<float, 9> m`).
Field `mI` is `m[I]` of the C++ array. -/
structure Matrix3 where
  m0 : ℚ
  m1 : ℚ
  m2 : ℚ
  m3 : ℚ
  m4 : ℚ
  m5 : ℚ
  m6 : ℚ
  m7 : ℚ
  m8 : ℚ
deriving DecidableEq, Repr

/-- 4x4 matrix, row-major, from Vector.h `class Matrix4` (`std::array<float, 16> m`).
Field `mI` is `m[I]` of the C++ array. -/
structure Matrix4 where
  m0 : ℚ
  m1 : ℚ
  m2 : ℚ
  m3 : ℚ
  m4 : ℚ
  m5 : ℚ
  m6 : ℚ
  m7 : ℚ
  m8 : ℚ
  m9 : ℚ
  m10 : ℚ
  m11 : ℚ
  m12 : ℚ
  m13 : ℚ
  m14 : ℚ
  m15 : ℚ
deriving DecidableEq, Repr

/-- The singularity tolerance `1e-6f` used by `Matrix3::Inverse` and
`Matrix4::Inverse` in Vector.h. -/
def invEps : ℚ := 1 / 1000000

/-- `Matrix3::Identity()` from Vector.h. -/
def Matrix3.Identity : Matrix3 :=
  ⟨1, 0, 0,
   0, 1, 0,
   0, 0, 1⟩

/-- `Matrix3::Determinant()` from Vector.h (lines 512-516). -/
def Matrix3.Determinant (A : Matrix3) : ℚ :=
  A.m0 * (A.m4 * A.m8 - A.m5 * A.m7) -
  A.m1 * (A.m3 * A.m8 - A.m5 * A.m6) +
  A.m2 * (A.m3 * A.m7 - A.m4 * A.m6)

/-- `Matrix3::Inverse()` from Vector.h (lines 518-538): if `|det| < 1e-6`
return the identity matrix, otherwise the cofactor expressions scaled by
`invDet = 1/det`, transliterated entry by entry. -/
def Matrix3.Inverse (A : Matrix3) : Matrix3 :=
  let det := A.Determinant
  if |det| < invEps then Matrix3.Identity
  else
    let invDet := 1 / det
    ⟨(A.m4 * A.m8 - A.m5 * A.m7) * invDet,
     (A.m2 * A.m7 - A.m1 * A.m8) * invDet,
     (A.m1 * A.m5 - A.m2 * A.m4) * invDet,
     (A.m5 * A.m6 - A.m3 * A.m8) * invDet,
     (A.m0 * A.m8 - A.m2 * A.m6) * invDet,
     (A.m2 * A.m3 - A.m0 * A.m5) * invDet,
     (A.m3 * A.m7 - A.m4 * A.m6) * invDet,
     (A.m1 * A.m6 - A.m0 * A.m7) * invDet,
     (A.m0 * A.m4 - A.m1 * A.m3) * invDet⟩

/-- `Matrix4::Identity()` from Vector.h. -/
def Matrix4.Identity : Matrix4 :=
  ⟨1, 0, 0, 0,
   0, 1, 0, 0,
   0, 0, 1, 0,
   0, 0, 0, 1⟩

/-- `Matrix4::Determinant()` from Vector.h (lines 1036-1051), including its
intermediate products `a0..a5`, `b0..b5`. -/
def Matrix4.Determinant (A : Matrix4) : ℚ :=
  let a0 := A.m0 * A.m5 - A.m1 * A.m4
  let a1 := A.m0 * A.m6 - A.m2 * A.m4
  let a2 := A.m0 * A.m7 - A.m3 * A.m4
  let a3 := A.m1 * A.m6 - A.m2 * A.m5
  let a4 := A.m1 * A.m7 - A.m3 * A.m5
  let a5 := A.m2 * A.m7 - A.m3 * A.m6
  let b0 := A.m8 * A.m13 - A.m9 * A.m12
  let b1 := A.m8 * A.m14 - A.m10 * A.m12
  let b2 := A.m8 * A.m15 - A.m11 * A.m12
  let b3 := A.m9 * A.m14 - A.m10 * A.m13
  let b4 := A.m9 * A.m15 - A.m11 * A.m13
  let b5 := A.m10 * A.m15 - A.m11 * A.m14
  a0 * b5 - a1 * b4 + a2 * b3 + a3 * b2 - a4 * b1 + a5 * b0

/-- `Matrix4::Inverse()` from Vector.h (lines 1053-1083): if `|det| < 1e-6`
return the identity matrix, otherwise the 16 hand-expanded cofactor
expressions scaled by `invDet = 1/det`, transliterated entry by entry. -/
def Matrix4.Inverse (A : Matrix4) : Matrix4 :=
  let det := A.Determinant
  if |det| < invEps then Matrix4.Identity
  else
    let invDet := 1 / det
    ⟨(A.m5 * (A.m10 * A.m15 - A.m11 * A.m14) - A.m9 * (A.m6 * A.m15 - A.m7 * A.m14) + A.m13 * (A.m6 * A.m11 - A.m7 * A.m10)) * invDet,
     -(A.m1 * (A.m10 * A.m15 - A.m11 * A.m14) - A.m9 * (A.m2 * A.m15 - A.m3 * A.m14) + A.m13 * (A.m2 * A.m11 - A.m3 * A.m10)) * invDet,
     (A.m1 * (A.m6 * A.m15 - A.m7 * A.m14) - A.m5 * (A.m2 * A.m15 - A.m3 * A.m14) + A.m13 * (A.m2 * A.m7 - A.m3 * A.m6)) * invDet,
     -(A.m1 * (A.m6 * A.m11 - A.m7 * A.m10) - A.m5 * (A.m2 * A.m11 - A.m3 * A.m10) + A.m9 * (A.m2 * A.m7 - A.m3 * A.m6)) * invDet,
     -(A.m4 * (A.m10 * A.m15 - A.m11 * A.m14) - A.m8 * (A.m6 * A.m15 - A.m7 * A.m14) + A.m12 * (A.m6 * A.m11 - A.m7 * A.m10)) * invDet,
     (A.m0 * (A.m10 * A.m15 - A.m11 * A.m14) - A.m8 * (A.m2 * A.m15 - A.m3 * A.m14) + A.m12 * (A.m2 * A.m11 - A.m3 * A.m10)) * invDet,
     -(A.m0 * (A.m6 * A.m15 - A.m7 * A.m14) - A.m4 * (A.m2 * A.m15 - A.m3 * A.m14) + A.m12 * (A.m2 * A.m7 - A.m3 * A.m6)) * invDet,
     (A.m0 * (A.m6 * A.m11 - A.m7 * A.m10) - A.m4 * (A.m2 * A.m11 - A.m3 * A.m10) + A.m8 * (A.m2 * A.m7 - A.m3 * A.m6)) * invDet,
     (A.m4 * (A.m9 * A.m15 - A.m11 * A.m13) - A.m8 * (A.m5 * A.m15 - A.m7 * A.m13) + A.m12 * (A.m5 * A.m11 - A.m7 * A.m9)) * invDet,
     -(A.m0 * (A.m9 * A.m15 - A.m11 * A.m13) - A.m8 * (A.m1 * A.m15 - A.m3 * A.m13) + A.m12 * (A.m1 * A.m11 - A.m3 * A.m9)) * invDet,
     (A.m0 * (A.m5 * A.m15 - A.m7 * A.m13) - A.m4 * (A.m1 * A.m15 - A.m3 * A.m13) + A.m12 * (A.m1 * A.m7 - A.m3 * A.m5)) * invDet,
     -(A.m0 * (A.m5 * A.m11 - A.m7 * A.m9) - A.m4 * (A.m1 * A.m11 - A.m3 * A.m9) + A.m8 * (A.m1 * A.m7 - A.m3 * A.m5)) * invDet,
     -(A.m4 * (A.m9 * A.m14 - A.m10 * A.m13) - A.m8 * (A.m5 * A.m14 - A.m6 * A.m13) + A.m12 * (A.m5 * A.m10 - A.m6 * A.m9)) * invDet,
     (A.m0 * (A.m9 * A.m14 - A.m10 * A.m13) - A.m8 * (A.m1 * A.m14 - A.m2 * A.m13) + A.m12 * (A.m1 * A.m10 - A.m2 * A.m9)) * invDet,
     -(A.m0 * (A.m5 * A.m14 - A.m6 * A.m13) - A.m4 * (A.m1 * A.m14 - A.m2 * A.m13) + A.m12 * (A.m1 * A.m6 - A.m2 * A.m5)) * invDet,
     (A.m0 * (A.m5 * A.m10 - A.m6 * A.m9) - A.m4 * (A.m1 * A.m10 - A.m2 * A.m9) + A.m8 * (A.m1 * A.m6 - A.m2 * A.m5)) * invDet⟩

/-- `Matrix4::operator*(const Vector4&)` from Vector.h (lines 676-683). -/
def Matrix4.mulVec (A : Matrix4) (v : Vector4) : Vector4 :=
  ⟨A.m0 * v.x + A.m1 * v.y + A.m2 * v.z + A.m3 * v.w,
   A.m4 * v.x + A.m5 * v.y + A.m6 * v.z + A.m7 * v.w,
   A.m8 * v.x + A.m9 * v.y + A.m10 * v.z + A.m11 * v.w,
   A.m12 * v.x + A.m13 * v.y + A.m14 * v.z + A.m15 * v.w⟩

/-- `Matrix4::operator*(const Matrix4&)` from Vector.h (lines 664-674):
row-by-column products, written out for the row-major entry layout. -/
def Matrix4.mul (A B : Matrix4) : Matrix4 :=
  ⟨A.m0 * B.m0 + A.m1 * B.m4 + A.m2 * B.m8 + A.m3 * B.m12,
   A.m0 * B.m1 + A.m1 * B.m5 + A.m2 * B.m9 + A.m3 * B.m13,
   A.m0 * B.m2 + A.m1 * B.m6 + A.m2 * B.m10 + A.m3 * B.m14,
   A.m0 * B.m3 + A.m1 * B.m7 + A.m2 * B.m11 + A.m3 * B.m15,
   A.m4 * B.m0 + A.m5 * B.m4 + A.m6 * B.m8 + A.m7 * B.m12,
   A.m4 * B.m1 + A.m5 * B.m5 + A.m6 * B.m9 + A.m7 * B.m13,
   A.m4 * B.m2 + A.m5 * B.m6 + A.m6 * B.m10 + A.m7 * B.m14,
   A.m4 * B.m3 + A.m5 * B.m7 + A.m6 * B.m11 + A.m7 * B.m15,
   A.m8 * B.m0 + A.m9 * B.m4 + A.m10 * B.m8 + A.m11 * B.m12,
   A.m8 * B.m1 + A.m9 * B.m5 + A.m10 * B.m9 + A.m11 * B.m13,
   A.m8 * B.m2 + A.m9 * B.m6 + A.m10 * B.m10 + A.m11 * B.m14,
   A.m8 * B.m3 + A.m9 * B.m7 + A.m10 * B.m11 + A.m11 * B.m15,
   A.m12 * B.m0 + A.m13 * B.m4 + A.m14 * B.m8 + A.m15 * B.m12,
   A.m12 * B.m1 + A.m13 * B.m5 + A.m14 * B.m9 + A.m15 * B.m13,
   A.m12 * B.m2 + A.m13 * B.m6 + A.m14 * B.m10 + A.m15 * B.m14,
   A.m12 * B.m3 + A.m13 * B.m7 + A.m14 * B.m11 + A.m15 * B.m15⟩

/-- Determinant of a 3x3 block given entry by entry (mathematical helper,
used to define the adjugate that `Matrix4::Inverse` is compared against). -/
def det3 (a b c d e f g h i : ℚ) : ℚ :=
  a * (e * i - f * h) - b * (d * i - f * g) + c * (d * h - e * g)

/-- The mathematical adjugate of a 4x4 matrix: entry `(r, c)` is
`(-1)^(r+c)` times the 3x3 minor obtained by deleting row `c` and column
`r` (cofactor transpose). Written independently of `Matrix4.Inverse` so
the latter's hand-expanded entries can be checked against it. -/
def Matrix4.Adjugate (A : Matrix4) : Matrix4 :=
  ⟨det3 A.m5 A.m6 A.m7 A.m9 A.m10 A.m11 A.m13 A.m14 A.m15,
   -det3 A.m1 A.m2 A.m3 A.m9 A.m10 A.m11 A.m13 A.m14 A.m15,
   det3 A.m1 A.m2 A.m3 A.m5 A.m6 A.m7 A.m13 A.m14 A.m15,
   -det3 A.m1 A.m2 A.m3 A.m5 A.m6 A.m7 A.m9 A.m10 A.m11,
   -det3 A.m4 A.m6 A.m7 A.m8 A.m10 A.m11 A.m12 A.m14 A.m15,
   det3 A.m0 A.m2 A.m3 A.m8 A.m10 A.m11 A.m12 A.m14 A.m15,
   -det3 A.m0 A.m2 A.m3 A.m4 A.m6 A.m7 A.m12 A.m14 A.m15,
   det3 A.m0 A.m2 A.m3 A.m4 A.m6 A.m7 A.m8 A.m10 A.m11,
   det3 A.m4 A.m5 A.m7 A.m8 A.m9 A.m11 A.m12 A.m13 A.m15,
   -det3 A.m0 A.m1 A.m3 A.m8 A.m9 A.m11 A.m12 A.m13 A.m15,
   det3 A.m0 A.m1 A.m3 A.m4 A.m5 A.m7 A.m12 A.m13 A.m15,
   -det3 A.m0 A.m1 A.m3 A.m4 A.m5 A.m7 A.m8 A.m9 A.m11,
   -det3 A.m4 A.m5 A.m6 A.m8 A.m9 A.m10 A.m12 A.m13 A.m14,
   det3 A.m0 A.m1 A.m2 A.m8 A.m9 A.m10 A.m12 A.m13 A.m14,
   -det3 A.m0 A.m1 A.m2 A.m4 A.m5 A.m6 A.m12 A.m13 A.m14,
   det3 A.m0 A.m1 A.m2 A.m4 A.m5 A.m6 A.m8 A.m9 A.m10⟩

/-- The mathematical adjugate of a 3x3 matrix (cofactor transpose),
written independently of `Matrix3.Inverse`. -/
def Matrix3.Adjugate (A : Matrix3) : Matrix3 :=
  ⟨A.m4 * A.m8 - A.m5 * A.m7,
   -(A.m1 * A.m8 - A.m2 * A.m7),
   A.m1 * A.m5 - A.m2 * A.m4,
   -(A.m3 * A.m8 - A.m5 * A.m6),
   A.m0 * A.m8 - A.m2 * A.m6,
   -(A.m0 * A.m5 - A.m2 * A.m3),
   A.m3 * A.m7 - A.m4 * A.m6,
   -(A.m0 * A.m7 - A.m1 * A.m6),
   A.m0 * A.m4 - A.m1 * A.m3⟩

/-- Scalar multiple of a 4x4 matrix (`Matrix4::operator*(float)`). -/
def Matrix4.smul (s : ℚ) (A : Matrix4) : Matrix4 :=
  ⟨s * A.m0, s * A.m1, s * A.m2, s * A.m3,
   s * A.m4, s * A.m5, s * A.m6, s * A.m7,
   s * A.m8, s * A.m9, s * A.m10, s * A.m11,
   s * A.m12, s * A.m13, s * A.m14, s * A.m15⟩

/-- Scalar multiple of a 3x3 matrix (`Matrix3::operator*(float)`). -/
def Matrix3.smul (s : ℚ) (A : Matrix3) : Matrix3 :=
  ⟨s * A.m0, s * A.m1, s * A.m2,
   s * A.m3, s * A.m4, s * A.m5,
   s * A.m6, s * A.m7, s * A.m8⟩


/-- C9: `Matrix4::Inverse` is total and never divides by a near-zero
determinant: whenever `|det| < 1e-6` it returns the identity matrix with
no error, and otherwise it returns the adjugate scaled by `1/det`; the
same guarded fallback holds for `Matrix3::Inverse`. -/
theorem inverse_guarded_total (A : Matrix4) (B : Matrix3) :
    (|A.Determinant| < invEps → A.Inverse = Matrix4.Identity) ∧
    (¬ |A.Determinant| < invEps →
      A.Inverse = Matrix4.smul (1 / A.Determinant) A.Adjugate) ∧
    (|B.Determinant| < invEps → B.Inverse = Matrix3.Identity) ∧
    (¬ |B.Determinant| < invEps →
      B.Inverse = Matrix3.smul (1 / B.Determinant) B.Adjugate) := by
  refine ⟨fun h => ?_, fun h => ?_, fun h => ?_, fun h => ?_⟩
  · simp only [Matrix4.Inverse, if_pos h]
  · simp only [Matrix4.Inverse, if_neg h, Matrix4.smul, Matrix4.Adjugate, det3,
      Matrix4.mk.injEq]
    refine ⟨?_, ?_, ?_, ?_, ?_, ?_, ?_, ?_, ?_, ?_, ?_, ?_, ?_, ?_, ?_, ?_⟩ <;> ring
  · simp only [Matrix3.Inverse, if_pos h]
  · simp only [Matrix3.Inverse, if_neg h, Matrix3.smul, Matrix3.Adjugate,
      Matrix3.mk.injEq]
    refine ⟨?_, ?_, ?_, ?_, ?_, ?_, ?_, ?_, ?_⟩ <;> ring

/-- Witness for C9: the zero matrix takes the `|det| < 1e-6` fallback and
the identity matrix takes the adjugate branch, in both sizes. -/
theorem inverse_guarded_total_witness :
    (Matrix4.mk 0 0 0 0 0 0 0 0 0 0 0 0 0 0 0 0).Inverse = Matrix4.Identity ∧
    Matrix4.Identity.Inverse =
      Matrix4.smul (1 / Matrix4.Identity.Determinant) Matrix4.Identity.Adjugate ∧
    (Matrix3.mk 0 0 0 0 0 0 0 0 0).Inverse = Matrix3.Identity ∧
    Matrix3.Identity.Inverse =
      Matrix3.smul (1 / Matrix3.Identity.Determinant) Matrix3.Identity.Adjugate := by
  refine ⟨?_, ?_, ?_, ?_⟩
  · exact (inverse_guarded_total (Matrix4.mk 0 0 0 0 0 0 0 0 0 0 0 0 0 0 0 0)
      Matrix3.Identity).1 (by norm_num [Matrix4.Determinant, invEps])
  · exact (inverse_guarded_total Matrix4.Identity Matrix3.Identity).2.1
      (by norm_num [Matrix4.Determinant, Matrix4.Identity, invEps])
  · exact (inverse_guarded_total Matrix4.Identity (Matrix3.mk 0 0 0 0 0 0 0 0 0)).2.2.1
      (by norm_num [Matrix3.Determinant, invEps])
  · exact (inverse_guarded_total Matrix4.Identity Matrix3.Identity).2.2.2
      (by norm_num [Matrix3.Determinant, Matrix3.Identity, invEps])

/-- `UIImage::FillMethod` from UIComponents.h. -/
inductive FillMethod
  | Simple
  | Sliced
  | Tiled
  | Filled
deriving DecidableEq, Repr

/-- `UIImage::FillDirection` from UIComponents.h. -/
inductive FillDirection
  | LeftToRight
  | RightToLeft
  | BottomToTop
  | TopToBottom
deriving DecidableEq, Repr

/-- The value-typed state of a `UIImage` (UIComponents.h lines 100-108):
color, fill method/direction/amount, nine-slice border and UV rectangle.
The texture pointer carries no numeric state and is omitted. -/
structure UIImage where
  color : Vector4
  fillMethod : FillMethod
  fillDirection : FillDirection
  fillAmount : ℚ
  border : Vector4
  uvRect : Vector4
deriving DecidableEq, Repr

/-- A freshly constructed `UIImage`: member initializers from
UIComponents.h (`m_Color = White`, `m_FillMethod = Simple`,
`m_FillDirection = LeftToRight`, `m_FillAmount = 1.0f`,
`m_Border = (0,0,0,0)`, `m_UVRect = (0,0,1,1)`). -/
def UIImage.init : UIImage :=
  ⟨⟨1, 1, 1, 1⟩, FillMethod.Simple, FillDirection.LeftToRight, 1,
   ⟨0, 0, 0, 0⟩, ⟨0, 0, 1, 1⟩⟩

/-- `UIImage::SetFillAmount` from UIComponents.h line 87:
`m_FillAmount = std::max(0.0f, std::min(1.0f, amount))`. -/
def UIImage.SetFillAmount (img : UIImage) (amount : ℚ) : UIImage :=
  { img with fillAmount := max 0 (min 1 amount) }

/-- The mutating operations of `UIImage` (UIComponents.h lines 58-95),
texture aside; all are plain stores except `SetFillAmount`. -/
inductive UIImageOp
  | setColor (c : Vector4)
  | setFillMethod (m : FillMethod)
  | setFillDirection (d : FillDirection)
  | setFillAmount (a : ℚ)
  | setBorder (b : Vector4)
  | setUVRect (r : Vector4)

/-- Dispatch of one `UIImage` setter, each transliterated from its inline
body in UIComponents.h. -/
def UIImage.applyOp (img : UIImage) : UIImageOp → UIImage
  | .setColor c => { img with color := c }
  | .setFillMethod m => { img with fillMethod := m }
  | .setFillDirection d => { img with fillDirection := d }
  | .setFillAmount a => img.SetFillAmount a
  | .setBorder b => { img with border := b }
  | .setUVRect r => { img with uvRect := r }

/-- A sequence of `UIImage` operations applied in order. -/
def UIImage.applyOps (img : UIImage) (ops : List UIImageOp) : UIImage :=
  ops.foldl UIImage.applyOp img

lemma UIImage.applyOp_fill_bounds (img : UIImage) (op : UIImageOp)
    (h0 : 0 ≤ img.fillAmount) (h1 : img.fillAmount ≤ 1) :
    0 ≤ (img.applyOp op).fillAmount ∧ (img.applyOp op).fillAmount ≤ 1 := by
  cases op <;>
    simp_all [UIImage.applyOp, UIImage.SetFillAmount, le_max_iff, max_le_iff,
      min_le_iff, le_min_iff]

lemma UIImage.applyOps_fill_bounds (ops : List UIImageOp) (img : UIImage)
    (h0 : 0 ≤ img.fillAmount) (h1 : img.fillAmount ≤ 1) :
    0 ≤ (img.applyOps ops).fillAmount ∧ (img.applyOps ops).fillAmount ≤ 1 := by
  induction ops generalizing img with
  | nil => exact ⟨h0, h1⟩
  | cons op rest ih =>
      have h := UIImage.applyOp_fill_bounds img op h0 h1
      exact ih (img.applyOp op) h.1 h.2

/-- C8: `SetFillAmount` stores `max(0, min(1, a))`, a fresh `UIImage` has
fill amount 1, and `0 ≤ fillAmount ≤ 1` holds after any sequence of
`UIImage` operations starting from a fresh image. -/
theorem fillAmount_clamped_invariant :
    (∀ (img : UIImage) (a : ℚ),
      (img.SetFillAmount a).fillAmount = max 0 (min 1 a)) ∧
    UIImage.init.fillAmount = 1 ∧
    (∀ ops : List UIImageOp,
      0 ≤ (UIImage.init.applyOps ops).fillAmount ∧
      (UIImage.init.applyOps ops).fillAmount ≤ 1) := by
  refine ⟨fun img a => rfl, rfl, fun ops => ?_⟩
  exact UIImage.applyOps_fill_bounds ops UIImage.init (by norm_num [UIImage.init])
    (by norm_num [UIImage.init])

/-- The scene-owning part of the engine state, from Core/Engine.h
(`m_Scenes : std::unordered_map<std::string, std::shared_ptr<Scene>>`).
Scenes are modelled by numeric identities; `Scene::Create` (whose body is
not part of the sources) is modelled as always allocating a fresh scene,
tracked by the `nextScene` counter. -/
structure EngineState where
  scenes : List (String × ℕ)
  nextScene : ℕ
deriving DecidableEq, Repr

/-- Lookup in the scene map (`m_Scenes.find(name)`). -/
def lookupScene (m : List (String × ℕ)) (name : String) : Option ℕ :=
  (m.find? (fun kv => kv.1 == name)).map (fun kv => kv.2)

/-- `Engine::CreateScene` from Engine.cpp lines 246-261: if a scene with
the given name exists, report it and return the stored scene; otherwise
create a scene and insert it under the name. -/
def Engine.CreateScene (st : EngineState) (name : String) : ℕ × EngineState :=
  match st.scenes.find? (fun kv => kv.1 == name) with
  | some kv => (kv.2, st)
  | none =>
      (st.nextScene, ⟨st.scenes ++ [(name, st.nextScene)], st.nextScene + 1⟩)

/-- C10: `Engine::CreateScene` never overwrites an existing scene: for a
name already in the map it returns the previously stored scene and leaves
the state unchanged; only for an absent name does it create and insert a
new scene, which is then retrievable under that name. -/
theorem CreateScene_no_overwrite (st : EngineState) (name : String) :
    (∀ s, lookupScene st.scenes name = some s →
      Engine.CreateScene st name = (s, st)) ∧
    (lookupScene st.scenes name = none →
      Engine.CreateScene st name =
        (st.nextScene, ⟨st.scenes ++ [(name, st.nextScene)], st.nextScene + 1⟩) ∧
      lookupScene (st.scenes ++ [(name, st.nextScene)]) name = some st.nextScene) := by
  constructor
  · intro s hs
    unfold lookupScene at hs
    rcases Option.map_eq_some'.mp hs with ⟨kv, hfind, hval⟩
    unfold Engine.CreateScene
    rw [hfind]
    simp [hval]
  · intro hnone
    unfold lookupScene at hnone
    have hfind : st.scenes.find? (fun kv => kv.1 == name) = none := by
      cases h : st.scenes.find? (fun kv => kv.1 == name) with
      | none => rfl
      | some kv => rw [h] at hnone; simp at hnone
    constructor
    · unfold Engine.CreateScene
      rw [hfind]
    · unfold lookupScene
      rw [List.find?_append, hfind]
      simp

/-- Witness for C10: with one scene "Default Scene" stored, creating
"Default Scene" again returns the stored scene and changes nothing, while
creating "HUD" inserts a fresh scene. -/
theorem CreateScene_no_overwrite_witness :
    Engine.CreateScene ⟨[("Default Scene", 0)], 1⟩ "Default Scene" =
      (0, ⟨[("Default Scene", 0)], 1⟩) ∧
    Engine.CreateScene ⟨[("Default Scene", 0)], 1⟩ "HUD" =
      (1, ⟨[("Default Scene", 0), ("HUD", 1)], 2⟩) := by
  constructor
  · exact (CreateScene_no_overwrite ⟨[("Default Scene", 0)], 1⟩ "Default Scene").1 0
      (by decide)
  · exact ((CreateScene_no_overwrite ⟨[("Default Scene", 0)], 1⟩ "HUD").2
      (by decide)).1

/-- One child as `UIPanel`'s layout pass sees it: the owning element's
active and visible flags (UISystem.h `m_IsActive`, `m_IsVisible`) and its
RectTransform size. -/
structure LayoutChild where
  active : Bool
  visible : Bool
  width : ℚ
  height : ℚ
deriving DecidableEq, Repr

/-- Modelled from the spec: the cursor run at the heart of
`UIPanel::UpdateHorizontalLayout` (UIComponents.h line 738, body not in
the sources; spec.md §4.2). Starting from `cur`, each width is placed at
the running cursor, which then advances by `width + spacing`. Returns
the placed positions and the final cursor value. -/
def layoutRun (spacing : ℚ) : ℚ → List ℚ → List ℚ × ℚ
  | cur, [] => ([], cur)
  | cur, w :: ws =>
      let rest := layoutRun spacing (cur + w + spacing) ws
      (cur :: rest.1, rest.2)

/-- The widths of the active, visible children, in order; inactive or
invisible children are skipped entirely (spec.md §4.2). -/
def visibleWidths (children : List LayoutChild) : List ℚ :=
  (children.filter fun c => c.active && c.visible).map LayoutChild.width

/-- Modelled from the spec: `UIPanel::UpdateHorizontalLayout`
(UIComponents.h line 738, body not in the sources; spec.md §4.2).
Returns the content-rect-relative x positions of the active, visible
children (cursor-driven, starting at the content rect's edge; the
horizontal component of `childAlignment` is ignored) and the consumed
content width (final cursor minus the trailing spacing; zero when there
are no children). -/
def UIPanel.UpdateHorizontalLayout (spacing : ℚ) (children : List LayoutChild) :
    List ℚ × ℚ :=
  let ws := visibleWidths children
  let run := layoutRun spacing 0 ws
  (run.1, if ws.isEmpty then 0 else run.2 - spacing)

lemma layoutRun_get (spacing : ℚ) (ws : List ℚ) :
    ∀ (cur : ℚ) (k : ℕ), k < ws.length →
      (layoutRun spacing cur ws).1[k]? =
        some (cur + (ws.take k).sum + spacing * k) := by
  induction ws with
  | nil => intro cur k hk; simp at hk
  | cons w ws ih =>
      intro cur k hk
      cases k with
      | zero => simp [layoutRun]
      | succ k =>
          have hk2 : k < ws.length := by simpa using hk
          simp only [layoutRun, List.getElem?_cons_succ]
          rw [ih (cur + w + spacing) k hk2]
          congr 1
          simp [List.take_succ_cons, List.sum_cons]
          ring_nf

lemma layoutRun_final (spacing : ℚ) (ws : List ℚ) :
    ∀ cur : ℚ, (layoutRun spacing cur ws).2 = cur + ws.sum + spacing * ws.length := by
  induction ws with
  | nil => intro cur; simp [layoutRun]
  | cons w ws ih =>
      intro cur
      simp only [layoutRun]
      rw [ih (cur + w + spacing)]
      simp [List.sum_cons]
      ring_nf

/-- C5: in Horizontal mode the k-th active, visible child is placed at
the running cursor, i.e. at content-relative x = (sum of the first k
visible widths) + spacing·k, and the consumed width is the width sum plus
spacing·(n−1) (zero for no children); in particular three children of
width 50 with spacing 10 land at x = 0, 60, 120 with consumed width 170. -/
theorem horizontal_layout_cursor (spacing : ℚ) (children : List LayoutChild) :
    (∀ k, k < (visibleWidths children).length →
      (UIPanel.UpdateHorizontalLayout spacing children).1[k]? =
        some (((visibleWidths children).take k).sum + spacing * k)) ∧
    (UIPanel.UpdateHorizontalLayout spacing children).2 =
      (if (visibleWidths children).isEmpty then 0
       else (visibleWidths children).sum +
         spacing * (((visibleWidths children).length - 1 : ℕ) : ℚ)) ∧
    UIPanel.UpdateHorizontalLayout 10
      [⟨true, true, 50, 50⟩, ⟨true, true, 50, 50⟩, ⟨true, true, 50, 50⟩] =
      ([0, 60, 120], 170) := by
  refine ⟨fun k hk => ?_, ?_, ?_⟩
  · have h := layoutRun_get spacing (visibleWidths children) 0 k hk
    simpa [UIPanel.UpdateHorizontalLayout] using h
  · by_cases hemp : (visibleWidths children).isEmpty
    · simp [UIPanel.UpdateHorizontalLayout, hemp]
    · have hlen : 1 ≤ (visibleWidths children).length := by
        rcases Nat.eq_zero_or_pos (visibleWidths children).length with h0 | hpos
        · exact absurd (List.isEmpty_iff.mpr (List.length_eq_zero.mp h0)) hemp
        · exact hpos
      have h := layoutRun_final spacing (visibleWidths children) 0
      simp only [UIPanel.UpdateHorizontalLayout, if_neg hemp]
      rw [h]
      have : (((visibleWidths children).length - 1 : ℕ) : ℚ) =
          ((visibleWidths children).length : ℚ) - 1 := by
        push_cast [hlen]
        ring
      rw [this]
      ring
  · norm_num [UIPanel.UpdateHorizontalLayout, visibleWidths, layoutRun, List.filter]

/-- Witness for C5: evaluating the cursor formula for the second of the
three width-50 children (spacing 10) gives x = 60. -/
theorem horizontal_layout_cursor_witness :
    (UIPanel.UpdateHorizontalLayout 10
      [⟨true, true, 50, 50⟩, ⟨true, true, 50, 50⟩, ⟨true, true, 50, 50⟩]).1[1]? =
      some ((([50, 50] : List ℚ).take 1).sum + 10 * 1) := by
  have h := (horizontal_layout_cursor 10
    [⟨true, true, 50, 50⟩, ⟨true, true, 50, 50⟩, ⟨true, true, 50, 50⟩]).1 1
    (by decide)
  simpa [visibleWidths] using h

/-- `UIPanel::SetGridColumns` (UIComponents.h line 716, body not in the
sources). Modelled from the spec: `gridColumns ≤ 0` is invalid
configuration and is clamped to 1 with no error surfaced (spec.md §7). -/
def UIPanel.SetGridColumns (columns : ℤ) : ℤ :=
  max columns 1

/-- Modelled from the spec: the row-major cell walk of
`UIPanel::UpdateGridLayout` (UIComponents.h line 740, body not in the
sources; spec.md §4.2): children are assigned (row, column) cells left to
right, wrapping to the next row once `cols` columns are filled. -/
def gridCells (cols : ℕ) : ℕ → ℕ → ℕ → List (ℕ × ℕ)
  | _, _, 0 => []
  | row, col, n + 1 =>
      (row, col) ::
        (if col + 1 == cols then gridCells cols (row + 1) 0 n
         else gridCells cols row (col + 1) n)

/-- Modelled from the spec: `UIPanel::UpdateGridLayout` (UIComponents.h
line 740, body not in the sources; spec.md §4.2) for `n` active, visible
children: the cell assignments, the row count `ceil(n / cols)` (computed
with the integer idiom `(n + cols - 1) / cols`), and the cell width
`(content width - spacing * (cols - 1)) / cols`. -/
def UIPanel.UpdateGridLayout (cols n : ℕ) (contentWidth spacing : ℚ) :
    List (ℕ × ℕ) × ℕ × ℚ :=
  (gridCells cols 0 0 n,
   (n + cols - 1) / cols,
   (contentWidth - spacing * ((cols - 1 : ℕ) : ℚ)) / (cols : ℚ))

lemma gridCells_get (cols : ℕ) (hcols : 0 < cols) :
    ∀ (n row col k : ℕ), col < cols → k < n →
      (gridCells cols row col n)[k]? =
        some (row + (col + k) / cols, (col + k) % cols) := by
  intro n
  induction n with
  | zero => intro row col k _ hk; omega
  | succ n ih =>
      intro row col k hcol hk
      cases k with
      | zero =>
          simp [gridCells, Nat.div_eq_of_lt hcol, Nat.mod_eq_of_lt hcol]
      | succ k =>
          have hk2 : k < n := by omega
          simp only [gridCells, List.getElem?_cons_succ]
          by_cases hwrap : col + 1 = cols
          · rw [if_pos (by simpa using hwrap)]
            rw [ih (row + 1) 0 k hcols hk2]
            have hsum : col + (k + 1) = k + cols := by omega
            rw [hsum, Nat.add_div_right k hcols, Nat.add_mod_right k cols]
            simp [Nat.zero_add]
            omega
          · rw [if_neg (by simpa using hwrap)]
            have hcol2 : col + 1 < cols := by omega
            rw [ih row (col + 1) k hcol2 hk2]
            have hsum : col + 1 + k = col + (k + 1) := by omega
            rw [hsum]

lemma gridRows_eq_ceil (n cols : ℕ) (hcols : 1 ≤ cols) :
    ((n + cols - 1) / cols : ℕ) = Nat.ceil ((n : ℚ) / (cols : ℚ)) := by
  rcases Nat.eq_zero_or_pos n with hn | hn
  · subst hn
    simp [Nat.div_eq_of_lt (by omega : cols - 1 < cols)]
  · set q := (n + cols - 1) / cols with hq
    have hq1 : 1 ≤ q := by
      rw [hq]
      rw [Nat.one_le_div_iff (by omega)]
      omega
    have hdm := Nat.div_add_mod (n + cols - 1) cols
    have hmlt : (n + cols - 1) % cols < cols := Nat.mod_lt _ (by omega)
    rw [← hq] at hdm
    have hup : n ≤ cols * q := by
      generalize hgen : (n + cols - 1) % cols = r at hdm hmlt
      generalize hgen2 : cols * q = t at hdm ⊢
      omega
    have hlow : cols * q < n + cols := by
      generalize hgen : (n + cols - 1) % cols = r at hdm hmlt
      generalize hgen2 : cols * q = t at hdm ⊢
      omega
    have hupq : (n : ℚ) ≤ (cols : ℚ) * (q : ℚ) := by exact_mod_cast hup
    have hlowq : (cols : ℚ) * (q : ℚ) < (n : ℚ) + (cols : ℚ) := by exact_mod_cast hlow
    symm
    rw [Nat.ceil_eq_iff (by omega)]
    constructor
    · have hcast : ((q - 1 : ℕ) : ℚ) = (q : ℚ) - 1 := by
        push_cast [hq1]
        ring
      rw [hcast, lt_div_iff₀ (by exact_mod_cast hcols)]
      linarith
    · rw [div_le_iff₀ (by exact_mod_cast hcols)]
      linarith

/-- C6: in Grid mode with `cols ≥ 1` columns, child k is assigned to row
`k / cols` and column `k % cols` (row-major), the row count is
`ceil(n / cols)`, and the cell width is
`(content width - spacing * (cols - 1)) / cols`; in particular 5 children
with 2 columns occupy 3 rows as (0,0),(0,1),(1,0),(1,1),(2,0). -/
theorem grid_layout_rowmajor (cols n : ℕ) (contentWidth spacing : ℚ)
    (hcols : 1 ≤ cols) :
    (∀ k, k < n →
      (UIPanel.UpdateGridLayout cols n contentWidth spacing).1[k]? =
        some (k / cols, k % cols)) ∧
    (UIPanel.UpdateGridLayout cols n contentWidth spacing).2.1 =
      Nat.ceil ((n : ℚ) / (cols : ℚ)) ∧
    (UIPanel.UpdateGridLayout cols n contentWidth spacing).2.2 =
      (contentWidth - spacing * ((cols - 1 : ℕ) : ℚ)) / (cols : ℚ) ∧
    (UIPanel.UpdateGridLayout 2 5 contentWidth spacing).1 =
      [(0, 0), (0, 1), (1, 0), (1, 1), (2, 0)] ∧
    (UIPanel.UpdateGridLayout 2 5 contentWidth spacing).2.1 = 3 := by
  refine ⟨fun k hk => ?_, ?_, rfl, rfl, rfl⟩
  · have h := gridCells_get cols (by omega) n 0 0 k hcols hk
    simpa [UIPanel.UpdateGridLayout] using h
  · exact gridRows_eq_ceil n cols hcols

/-- Witness for C6: with 2 columns and 5 children, child 4 sits in cell
(2, 0) and the layout occupies 3 rows; with content width 300 and spacing
10 each cell is 145 wide. -/
theorem grid_layout_rowmajor_witness :
    (UIPanel.UpdateGridLayout 2 5 300 10).1[4]? = some (2, 0) ∧
    (UIPanel.UpdateGridLayout 2 5 300 10).2.1 = 3 ∧
    (UIPanel.UpdateGridLayout 2 5 300 10).2.2 = 145 := by
  refine ⟨?_, ?_, ?_⟩
  · have h := (grid_layout_rowmajor 2 5 300 10 (by norm_num)).1 4 (by norm_num)
    simpa using h
  · exact (grid_layout_rowmajor 2 5 300 10 (by norm_num)).2.2.2.2
  · rw [(grid_layout_rowmajor 2 5 300 10 (by norm_num)).2.2.1]
    norm_num

/-- `Matrix4::Translation(x, y, z)` from Vector.h (lines 1103-1110). -/
def Matrix4.Translation (x y z : ℚ) : Matrix4 :=
  ⟨1, 0, 0, x,
   0, 1, 0, y,
   0, 0, 1, z,
   0, 0, 0, 1⟩

/-- `Matrix4::Scale(x, y, z)` from Vector.h (lines 1116-1123). -/
def Matrix4.Scale (x y z : ℚ) : Matrix4 :=
  ⟨x, 0, 0, 0,
   0, y, 0, 0,
   0, 0, z, 0,
   0, 0, 0, 1⟩

/-- `Matrix4::RotationZ(radians)` from Vector.h (lines 1153-1163), taken
at a point where `c = cos(radians)` and `s = sin(radians)` have already
been computed (the model carries the cosine/sine pair instead of calling
the transcendental functions). -/
def Matrix4.RotationZ (c s : ℚ) : Matrix4 :=
  ⟨c, -s, 0, 0,
   s, c, 0, 0,
   0, 0, 1, 0,
   0, 0, 0, 1⟩

/-- A cosine/sine oracle for angles in degrees, standing in for
`std::cos`/`std::sin` applied to the converted `m_Rotation`; every
theorem about matrix recomputation is proved for an arbitrary oracle. -/
structure TrigModel where
  cosd : ℚ → ℚ
  sind : ℚ → ℚ

/-- `cosd 0 = 1, sind 0 = 0`: the exact oracle values for rotation 0,
used to instantiate theorems on unrotated transforms. -/
def trigZero : TrigModel := ⟨fun _ => 1, fun _ => 0⟩

/-- Modelled from the spec: the local transform matrix of a RectTransform
(spec.md §4.1, the body of `RectTransform::UpdateTransform` is not in the
sources): scale, then rotate, then translate, each relative to the pivot,
i.e. `T(position) · T(pv) · Rz(rotation) · S(scale) · T(-pv)` where
`pv = (pivot.x · size.x, pivot.y · size.y)` is the pivot point in local
units. -/
def localMatrix (T : TrigModel) (position size scale pivot : Vector2)
    (rotation : ℚ) : Matrix4 :=
  let pv : Vector2 := ⟨pivot.x * size.x, pivot.y * size.y⟩
  (((Matrix4.Translation position.x position.y 0).mul
      (Matrix4.Translation pv.x pv.y 0)).mul
    ((Matrix4.RotationZ (T.cosd rotation) (T.sind rotation)).mul
      (Matrix4.Scale scale.x scale.y 1))).mul
    (Matrix4.Translation (-pv.x) (-pv.y) 0)

/-- The shape of every matrix the RectTransform chain can cache: a 2-D
affine map embedded in a `Matrix4`, with linear part `(a b; c d)`,
translation `(tx, ty)`, and the z/w rows untouched. Products of
`Translation(·,·,0)`, `RotationZ` and `Scale(·,·,1)` all have this form. -/
def affine2 (a b c d tx ty : ℚ) : Matrix4 :=
  ⟨a, b, 0, tx,
   c, d, 0, ty,
   0, 0, 1, 0,
   0, 0, 0, 1⟩

/-- Modelled from the spec: `RectTransform::LocalToWorld` (UISystem.h
line 163, body not in the sources) applies the cached local-to-world
matrix `L` to the homogeneous point `(x, y, 0, 1)`. -/
def RectTransform.LocalToWorld (L : Matrix4) (p : Vector2) : Vector2 :=
  let v := L.mulVec ⟨p.x, p.y, 0, 1⟩
  ⟨v.x, v.y⟩

/-- Modelled from the spec: `RectTransform::WorldToLocal` (UISystem.h
line 162, body not in the sources) applies the cached world-to-local
matrix, which `UpdateTransform` computes as `Matrix4::Inverse` of the
cached local-to-world matrix `L`. -/
def RectTransform.WorldToLocal (L : Matrix4) (p : Vector2) : Vector2 :=
  let v := L.Inverse.mulVec ⟨p.x, p.y, 0, 1⟩
  ⟨v.x, v.y⟩

/-- C1 counterexample: the claim fails in the singular case it explicitly
includes. A RectTransform with scale (0,0) (rotation 0, pivot and
position at the origin) caches the singular local-to-world matrix
`affine2 0 0 0 0 0 0`; there `Matrix4::Inverse` returns the identity, so
`LocalToWorld(WorldToLocal((1,2)))` evaluates to `(0,0) ≠ (1,2)`. -/
theorem point_roundtrip_fails_when_singular :
    localMatrix trigZero ⟨0, 0⟩ ⟨100, 100⟩ ⟨0, 0⟩ ⟨0, 0⟩ 0 =
      affine2 0 0 0 0 0 0 ∧
    RectTransform.LocalToWorld (affine2 0 0 0 0 0 0)
      (RectTransform.WorldToLocal (affine2 0 0 0 0 0 0) ⟨1, 2⟩) ≠ ⟨1, 2⟩ := by
  constructor
  · norm_num [localMatrix, trigZero, Matrix4.Translation, Matrix4.RotationZ,
      Matrix4.Scale, Matrix4.mul, affine2]
  · norm_num [RectTransform.LocalToWorld, RectTransform.WorldToLocal,
      Matrix4.Inverse, Matrix4.Determinant, Matrix4.Identity, Matrix4.mulVec,
      affine2, invEps, Vector2.mk.injEq]

/-- C1 (amended): for a cached local-to-world matrix of the affine shape
the transform chain produces, whenever the matrix is not rejected as
singular by the `|det| < 1e-6` guard, `LocalToWorld` and `WorldToLocal`
are exact mutual inverses on every point; when the guard fires the
world-to-local matrix is the identity and the roundtrip does not hold in
general (see the counterexample). -/
theorem point_roundtrip_inverse (a b c d tx ty : ℚ) (p : Vector2)
    (h : ¬ |(affine2 a b c d tx ty).Determinant| < invEps) :
    RectTransform.LocalToWorld (affine2 a b c d tx ty)
      (RectTransform.WorldToLocal (affine2 a b c d tx ty) p) = p ∧
    RectTransform.WorldToLocal (affine2 a b c d tx ty)
      (RectTransform.LocalToWorld (affine2 a b c d tx ty) p) = p := by
  have hdet : (affine2 a b c d tx ty).Determinant = a * d - b * c := by
    simp only [affine2, Matrix4.Determinant]
    ring
  have hne : a * d - b * c ≠ 0 := by
    intro h0
    apply h
    rw [hdet, h0]
    norm_num [invEps]
  obtain ⟨px, py⟩ := p
  constructor <;>
  · simp only [RectTransform.LocalToWorld, RectTransform.WorldToLocal,
      Matrix4.Inverse]
    rw [if_neg h]
    simp only [hdet]
    simp only [affine2, Matrix4.mulVec, Vector2.mk.injEq]
    constructor <;>
    · field_simp
      ring

/-- Witness for the amended C1: the translation-by-(5,7) matrix passes
the singularity guard and both roundtrips restore the point (3,4). -/
theorem point_roundtrip_inverse_witness :
    RectTransform.LocalToWorld (affine2 1 0 0 1 5 7)
      (RectTransform.WorldToLocal (affine2 1 0 0 1 5 7) ⟨3, 4⟩) = ⟨3, 4⟩ ∧
    RectTransform.WorldToLocal (affine2 1 0 0 1 5 7)
      (RectTransform.LocalToWorld (affine2 1 0 0 1 5 7) ⟨3, 4⟩) = ⟨3, 4⟩ :=
  point_roundtrip_inverse 1 0 0 1 5 7 ⟨3, 4⟩
    (by norm_num [affine2, Matrix4.Determinant, invEps])

/-- The stored state of one `RectTransform` node, fields and default
member initializers from UISystem.h lines 174-189. `offsets` packs
(left, top, right, bottom) as in `m_Offsets`. The parent back-reference
and child list hold node indices into the owning tree. -/
structure RectTransform where
  position : Vector2 := ⟨0, 0⟩
  size : Vector2 := ⟨100, 100⟩
  rotation : ℚ := 0
  scale : Vector2 := ⟨1, 1⟩
  anchorMin : Vector2 := ⟨1/2, 1/2⟩
  anchorMax : Vector2 := ⟨1/2, 1/2⟩
  pivot : Vector2 := ⟨1/2, 1/2⟩
  offsets : Vector4 := ⟨0, 0, 0, 0⟩
  parent : Option ℕ := none
  children : List ℕ := []
  localToWorld : Matrix4 := Matrix4.Identity
  worldToLocal : Matrix4 := Matrix4.Identity
  isDirty : Bool := true
deriving DecidableEq, Repr

/-- A tree of RectTransform nodes; node identities are list indices. -/
abbrev UITree : Type := List RectTransform

/-- The parent index of node `n` (`m_Parent`), `none` for a root or an
index outside the store. -/
def parentOf (σ : UITree) (n : ℕ) : Option ℕ :=
  match σ[n]? with
  | some r => r.parent
  | none => none

/-- The dirty flag of node `n` (`m_IsDirty`); an index outside the store
reads as dirty. -/
def nodeDirty (σ : UITree) (n : ℕ) : Bool :=
  match σ[n]? with
  | some r => r.isDirty
  | none => true

/-- The cached local-to-world matrix of node `n` (`m_LocalToWorldMatrix`). -/
def nodeL2W (σ : UITree) (n : ℕ) : Matrix4 :=
  match σ[n]? with
  | some r => r.localToWorld
  | none => Matrix4.Identity

/-- The cached world-to-local matrix of node `n` (`m_WorldToLocalMatrix`). -/
def nodeW2L (σ : UITree) (n : ℕ) : Matrix4 :=
  match σ[n]? with
  | some r => r.worldToLocal
  | none => Matrix4.Identity

/-- The ancestor chain of node `n`: its parent, grandparent, and so on,
walked through the `m_Parent` back-references with bounded fuel. -/
def ancChain (σ : UITree) : ℕ → ℕ → List ℕ
  | 0, _ => []
  | fuel + 1, n =>
      match parentOf σ n with
      | none => []
      | some p => p :: ancChain σ fuel p

/-- `b` appears in the ancestor chain of `a` (fuel `size + 1` covers every
chain of an acyclic tree, by `reaches_shortcut` below). -/
def isAncestor (σ : UITree) (b a : ℕ) : Bool :=
  decide (b ∈ ancChain σ (σ.length + 1) a)

/-- `m` lies in the subtree rooted at `n`: it is `n` itself or has `n` on
its ancestor chain. -/
def inSubtree (σ : UITree) (n m : ℕ) : Bool :=
  (n == m) || isAncestor σ n m

/-- `k`-fold iteration of the parent step from node `n`. -/
def iterParent (σ : UITree) : ℕ → ℕ → Option ℕ
  | 0, n => some n
  | k + 1, n =>
      match parentOf σ n with
      | none => none
      | some p => iterParent σ k p

/-- `b` is a proper ancestor of `a`: reachable by at least one parent step. -/
def Reaches (σ : UITree) (a b : ℕ) : Prop :=
  ∃ k, 1 ≤ k ∧ iterParent σ k a = some b

/-- No node is its own proper ancestor. -/
def Acyclic (σ : UITree) : Prop :=
  ∀ n k, 1 ≤ k → iterParent σ k n ≠ some n

/-- Executable acyclicity check: no cycle of length at most `size` through
any stored node (sufficient by `reaches_shortcut`). -/
def AcyclicB (σ : UITree) : Bool :=
  (List.range σ.length).all fun n =>
    (List.range (σ.length + 1)).all fun k =>
      (k == 0) || !(iterParent σ k n == some n)

lemma parentOf_some_lt (σ : UITree) (n p : ℕ) (h : parentOf σ n = some p) :
    n < σ.length := by
  unfold parentOf at h
  cases hg : σ[n]? with
  | none => rw [hg] at h; simp at h
  | some r => exact (List.getElem?_eq_some.mp hg).1

lemma iterParent_first_step (σ : UITree) (j n b : ℕ) (hj : 1 ≤ j)
    (h : iterParent σ j n = some b) : ∃ p, parentOf σ n = some p := by
  cases j with
  | zero => omega
  | succ j =>
      unfold iterParent at h
      cases hp : parentOf σ n with
      | none => rw [hp] at h; simp at h
      | some p => exact ⟨p, rfl⟩

lemma iterParent_add (σ : UITree) (a b n : ℕ) :
    iterParent σ (a + b) n = (iterParent σ a n).bind (iterParent σ b) := by
  induction a generalizing n with
  | zero => simp [iterParent]
  | succ a ih =>
      have hra : a + 1 + b = (a + b) + 1 := by omega
      rw [hra]
      cases hp : parentOf σ n with
      | none => simp [iterParent, hp]
      | some p => simp [iterParent, hp, ih]

lemma iterParent_isSome_of_le (σ : UITree) (a b j k : ℕ) (hjk : j ≤ k)
    (h : iterParent σ k a = some b) : ∃ v, iterParent σ j a = some v := by
  have hk : k = j + (k - j) := by omega
  rw [hk, iterParent_add] at h
  cases hv : iterParent σ j a with
  | none => rw [hv] at h; simp at h
  | some v => exact ⟨v, rfl⟩

lemma ancChain_sound (σ : UITree) :
    ∀ fuel a b, b ∈ ancChain σ fuel a →
      ∃ k, 1 ≤ k ∧ k ≤ fuel ∧ iterParent σ k a = some b := by
  intro fuel
  induction fuel with
  | zero => intro a b h; simp [ancChain] at h
  | succ fuel ih =>
      intro a b h
      unfold ancChain at h
      cases hp : parentOf σ a with
      | none => rw [hp] at h; simp at h
      | some p =>
          rw [hp] at h
          rcases List.mem_cons.mp h with hb | hb
          · exact ⟨1, le_refl 1, by omega, by simp [iterParent, hp, hb]⟩
          · obtain ⟨k, hk1, hkf, hit⟩ := ih p b hb
            exact ⟨k + 1, by omega, by omega, by simp [iterParent, hp, hit]⟩

lemma ancChain_complete (σ : UITree) :
    ∀ k fuel a b, 1 ≤ k → k ≤ fuel → iterParent σ k a = some b →
      b ∈ ancChain σ fuel a := by
  intro k
  induction k with
  | zero => intro fuel a b h1; omega
  | succ k ih =>
      intro fuel a b _ hkf hit
      unfold iterParent at hit
      cases hp : parentOf σ a with
      | none => rw [hp] at hit; simp at hit
      | some p =>
          rw [hp] at hit
          obtain ⟨fuel2, rfl⟩ : ∃ f, fuel = f + 1 := ⟨fuel - 1, by omega⟩
          unfold ancChain
          rw [hp]
          cases k with
          | zero =>
              simp only [iterParent] at hit
              exact List.mem_cons.mpr (Or.inl (Option.some.inj hit).symm)
          | succ k =>
              exact List.mem_cons.mpr (Or.inr (ih fuel2 p b (by omega) (by omega) hit))

lemma reaches_shortcut (σ : UITree) (a b k : ℕ) (hk : 1 ≤ k)
    (hit : iterParent σ k a = some b) :
    ∃ j, 1 ≤ j ∧ j ≤ σ.length ∧ iterParent σ j a = some b := by
  classical
  have hex : ∃ j, 1 ≤ j ∧ iterParent σ j a = some b := ⟨k, hk, hit⟩
  set j0 := Nat.find hex with hj0
  obtain ⟨hj1, hjit⟩ := Nat.find_spec hex
  refine ⟨j0, hj1, ?_, hjit⟩
  by_contra hgt
  push_neg at hgt
  have hu : ∀ i, i ≤ j0 → ∃ v, iterParent σ i a = some v := fun i hi =>
    iterParent_isSome_of_le σ a b i j0 hi hjit
  have hvalid : ∀ i, i < j0 → (iterParent σ i a).getD 0 < σ.length := by
    intro i hi
    obtain ⟨v, hv⟩ := hu i (by omega)
    obtain ⟨w, hw⟩ := hu (i + 1) (by omega)
    rw [show i + 1 = i + 1 from rfl, iterParent_add, hv] at hw
    simp only [Option.some_bind] at hw
    obtain ⟨p, hp⟩ := iterParent_first_step σ 1 v w (le_refl 1) hw
    rw [hv]
    exact parentOf_some_lt σ v p hp
  have hinj : Function.Injective
      (fun i : Fin j0 => (⟨(iterParent σ i.1 a).getD 0, hvalid i.1 i.2⟩ : Fin σ.length)) := by
    intro i1 i2 heq
    simp only [Fin.mk.injEq] at heq
    by_contra hne
    rcases Nat.lt_or_ge i1.1 i2.1 with hlt | hge
    · obtain ⟨v1, hv1⟩ := hu i1.1 (by omega)
      obtain ⟨v2, hv2⟩ := hu i2.1 (by omega)
      rw [hv1, hv2] at heq
      simp only [Option.getD_some] at heq
      have hsplit : iterParent σ (i2.1 + (j0 - i2.1)) a = some b := by
        rw [show i2.1 + (j0 - i2.1) = j0 from by omega]
        exact hjit
      rw [iterParent_add, hv2] at hsplit
      simp only [Option.some_bind] at hsplit
      have hm : iterParent σ (i1.1 + (j0 - i2.1)) a = some b := by
        rw [iterParent_add, hv1]
        simp only [Option.some_bind]
        rw [heq]
        exact hsplit
      have hmlt : i1.1 + (j0 - i2.1) < j0 := by omega
      have hm1 : 1 ≤ i1.1 + (j0 - i2.1) := by
        have := i2.2
        omega
      exact Nat.find_min hex hmlt ⟨hm1, hm⟩
    · have hlt2 : i2.1 < i1.1 := by
        rcases Nat.lt_or_ge i2.1 i1.1 with h2 | h2
        · exact h2
        · exact absurd (Fin.ext (by omega)) hne
      obtain ⟨v1, hv1⟩ := hu i2.1 (by omega)
      obtain ⟨v2, hv2⟩ := hu i1.1 (by omega)
      rw [hv2, hv1] at heq
      simp only [Option.getD_some] at heq
      have hsplit : iterParent σ (i1.1 + (j0 - i1.1)) a = some b := by
        rw [show i1.1 + (j0 - i1.1) = j0 from by omega]
        exact hjit
      rw [iterParent_add, hv2] at hsplit
      simp only [Option.some_bind] at hsplit
      have hm : iterParent σ (i2.1 + (j0 - i1.1)) a = some b := by
        rw [iterParent_add, hv1]
        simp only [Option.some_bind]
        rw [← heq]
        exact hsplit
      have hmlt : i2.1 + (j0 - i1.1) < j0 := by omega
      have hm1 : 1 ≤ i2.1 + (j0 - i1.1) := by
        have := i1.2
        omega
      exact Nat.find_min hex hmlt ⟨hm1, hm⟩
  have hcard := Fintype.card_le_of_injective _ hinj
  simp only [Fintype.card_fin] at hcard
  omega

lemma acyclic_of_acyclicB (σ : UITree) (hB : AcyclicB σ = true) : Acyclic σ := by
  intro n k hk hit
  obtain ⟨j, hj1, hjL, hjit⟩ := reaches_shortcut σ n n k hk hit
  obtain ⟨p, hp⟩ := iterParent_first_step σ j n n hj1 hjit
  have hn : n < σ.length := parentOf_some_lt σ n p hp
  unfold AcyclicB at hB
  rw [List.all_eq_true] at hB
  have h1 := hB n (List.mem_range.mpr hn)
  rw [List.all_eq_true] at h1
  have h2 := h1 j (List.mem_range.mpr (by omega))
  rcases Bool.or_eq_true _ _ |>.mp h2 with h3 | h3
  · have : j = 0 := by simpa using h3
    omega
  · rw [Bool.not_eq_true'] at h3
    rw [hjit] at h3
    simp at h3

/-- Map over the node store with access to each node's index. -/
def mapWithIndex (f : ℕ → RectTransform → RectTransform) : ℕ → UITree → UITree
  | _, [] => []
  | i, r :: rest => f i r :: mapWithIndex f (i + 1) rest

lemma mapWithIndex_length (f : ℕ → RectTransform → RectTransform) :
    ∀ (σ : UITree) (i : ℕ), (mapWithIndex f i σ).length = σ.length := by
  intro σ
  induction σ with
  | nil => intro i; rfl
  | cons r rest ih => intro i; simp [mapWithIndex, ih]

lemma mapWithIndex_getElem? (f : ℕ → RectTransform → RectTransform) :
    ∀ (σ : UITree) (i k : ℕ),
      (mapWithIndex f i σ)[k]? = (σ[k]?).map (f (i + k)) := by
  intro σ
  induction σ with
  | nil => intro i k; simp [mapWithIndex]
  | cons r rest ih =>
      intro i k
      cases k with
      | zero => simp [mapWithIndex]
      | succ k =>
          simp only [mapWithIndex, List.getElem?_cons_succ]
          have hidx : i + (k + 1) = (i + 1) + k := by omega
          rw [hidx, ih (i + 1) k]

/-- Apply `f` to the node stored at index `n`; no-op on a dangling index. -/
def modifyNode (σ : UITree) (n : ℕ) (f : RectTransform → RectTransform) : UITree :=
  match σ[n]? with
  | some r => σ.set n (f r)
  | none => σ

lemma modifyNode_length (σ : UITree) (n : ℕ) (f : RectTransform → RectTransform) :
    (modifyNode σ n f).length = σ.length := by
  unfold modifyNode
  cases σ[n]? <;> simp

lemma getElem?_modifyNode_self (σ : UITree) (n : ℕ) (f : RectTransform → RectTransform)
    (r : RectTransform) (h : σ[n]? = some r) :
    (modifyNode σ n f)[n]? = some (f r) := by
  unfold modifyNode
  rw [h]
  exact List.getElem?_set_self (List.getElem?_eq_some.mp h).1

lemma getElem?_modifyNode_other (σ : UITree) (n m : ℕ) (f : RectTransform → RectTransform)
    (h : m ≠ n) : (modifyNode σ n f)[m]? = σ[m]? := by
  unfold modifyNode
  cases hg : σ[n]? with
  | none => rfl
  | some r => exact List.getElem?_set_ne (fun he => h he.symm)

/-- Modelled from the spec: after a mutation of node `n`, the node itself
and every descendant are marked dirty (spec.md §4.1, §4.3). A node `m` is
a descendant of `n` exactly when `n` lies on `m`'s ancestor chain, so the
marking sets `m_IsDirty` on every store entry in `n`'s subtree and leaves
every other entry untouched. -/
def markDirtyAll (σ : UITree) (n : ℕ) : UITree :=
  mapWithIndex (fun m r => if inSubtree σ n m then { r with isDirty := true } else r) 0 σ

/-- A C++ float argument as a setter receives it: a finite value or one
of the non-finite IEEE values (NaN, +∞, -∞) that setters must reject. -/
inductive FVal
  | fin (q : ℚ)
  | nan
  | posInf
  | negInf
deriving DecidableEq, Repr

/-- `std::isfinite` on a float argument. -/
def FVal.isFinite : FVal → Bool
  | .fin _ => true
  | _ => false

/-- The rational payload of a finite float argument (junk 0 otherwise;
never stored, because non-finite arguments are rejected first). -/
def FVal.toQ : FVal → ℚ
  | .fin q => q
  | _ => 0

/-- The error taxonomy of the UI core (spec.md §7). -/
inductive UIError
  | InvalidArgument
  | CycleError
deriving DecidableEq, Repr

/-- One call to a RectTransform field setter (UISystem.h lines 125-150),
carrying the target node index and the raw float arguments. -/
inductive SetterCall
  | setPosition (n : ℕ) (x y : FVal)
  | setSize (n : ℕ) (x y : FVal)
  | setRotation (n : ℕ) (rot : FVal)
  | setScale (n : ℕ) (x y : FVal)
  | setAnchorMin (n : ℕ) (x y : FVal)
  | setAnchorMax (n : ℕ) (x y : FVal)
  | setAnchors (n : ℕ) (minx miny maxx maxy : FVal)
  | setPivot (n : ℕ) (x y : FVal)
  | setOffsets (n : ℕ) (ol ot oro ob : FVal)
deriving DecidableEq, Repr

/-- The node a setter call targets. -/
def SetterCall.target : SetterCall → ℕ
  | .setPosition n _ _ => n
  | .setSize n _ _ => n
  | .setRotation n _ => n
  | .setScale n _ _ => n
  | .setAnchorMin n _ _ => n
  | .setAnchorMax n _ _ => n
  | .setAnchors n _ _ _ _ => n
  | .setPivot n _ _ => n
  | .setOffsets n _ _ _ _ => n

/-- The numeric arguments of a setter call. -/
def SetterCall.args : SetterCall → List FVal
  | .setPosition _ x y => [x, y]
  | .setSize _ x y => [x, y]
  | .setRotation _ rot => [rot]
  | .setScale _ x y => [x, y]
  | .setAnchorMin _ x y => [x, y]
  | .setAnchorMax _ x y => [x, y]
  | .setAnchors _ a b c d => [a, b, c, d]
  | .setPivot _ x y => [x, y]
  | .setOffsets _ a b c d => [a, b, c, d]

/-- All numeric arguments of the call are finite. -/
def SetterCall.finiteArgs (c : SetterCall) : Bool :=
  c.args.all FVal.isFinite

/-- The field store a setter performs once validation has passed. -/
def SetterCall.fieldUpdate : SetterCall → RectTransform → RectTransform
  | .setPosition _ x y, nd => { nd with position := ⟨x.toQ, y.toQ⟩ }
  | .setSize _ x y, nd => { nd with size := ⟨x.toQ, y.toQ⟩ }
  | .setRotation _ rot, nd => { nd with rotation := rot.toQ }
  | .setScale _ x y, nd => { nd with scale := ⟨x.toQ, y.toQ⟩ }
  | .setAnchorMin _ x y, nd => { nd with anchorMin := ⟨x.toQ, y.toQ⟩ }
  | .setAnchorMax _ x y, nd => { nd with anchorMax := ⟨x.toQ, y.toQ⟩ }
  | .setAnchors _ a b c d, nd =>
      { nd with anchorMin := ⟨a.toQ, b.toQ⟩, anchorMax := ⟨c.toQ, d.toQ⟩ }
  | .setPivot _ x y, nd => { nd with pivot := ⟨x.toQ, y.toQ⟩ }
  | .setOffsets _ a b c d, nd => { nd with offsets := ⟨a.toQ, b.toQ, c.toQ, d.toQ⟩ }

/-- Modelled from the spec: a RectTransform setter (spec.md §4.1, §7):
validate that every numeric input is finite — rejecting the call with
`InvalidArgument` and leaving the tree untouched otherwise — then store
the value and mark the node and all of its descendants dirty. A call on
an index outside the store is likewise rejected with no mutation. -/
def applySetter (σ : UITree) (c : SetterCall) : UITree × Option UIError :=
  if c.finiteArgs then
    match σ[c.target]? with
    | some _ => (markDirtyAll (modifyNode σ c.target c.fieldUpdate) c.target, none)
    | none => (σ, some UIError.InvalidArgument)
  else (σ, some UIError.InvalidArgument)

/-- Drop `self` from a parent's child list (`RectTransform::RemoveChild`). -/
def removeChildEntry (self : ℕ) (nd : RectTransform) : RectTransform :=
  { nd with children := nd.children.filter (fun c => c != self) }

/-- Append `self` to a parent's child list (`RectTransform::AddChild`). -/
def appendChildEntry (self : ℕ) (nd : RectTransform) : RectTransform :=
  { nd with children := nd.children ++ [self] }

/-- Store a new parent back-reference. -/
def setParentField (np : Option ℕ) (nd : RectTransform) : RectTransform :=
  { nd with parent := np }

/-- Modelled from the spec: `RectTransform::SetParent` (UISystem.h line
157, body not in the sources; spec.md §4.1, §4.3): reject a call that
would make the node its own descendant with `CycleError` and leave the
tree untouched; otherwise remove the node from its old parent's child
list, append it to the new parent's child list, update the back-reference
and mark the moved subtree dirty. Dangling indices are rejected. -/
def SetParent (σ : UITree) (self np : ℕ) : UITree × Option UIError :=
  match σ[self]?, σ[np]? with
  | some nd, some _ =>
      if (self == np) || isAncestor σ self np then (σ, some UIError.CycleError)
      else
        let σa := match nd.parent with
          | none => σ
          | some op => modifyNode σ op (removeChildEntry self)
        let σb := modifyNode σa np (appendChildEntry self)
        let σc := modifyNode σb self (setParentField (some np))
        (markDirtyAll σc self, none)
  | _, _ => (σ, some UIError.InvalidArgument)

/-- C3: every RectTransform setter, on an argument with any non-finite
(NaN or ±∞) component, rejects the call with `InvalidArgument` reported
synchronously to the caller and returns the tree exactly unchanged — no
field, dirty flag or cached matrix of any node is mutated. -/
theorem setter_rejects_nonfinite (σ : UITree) (c : SetterCall)
    (h : c.finiteArgs = false) :
    applySetter σ c = (σ, some UIError.InvalidArgument) := by
  unfold applySetter
  rw [h]
  simp

/-- Witness for C3: `SetPosition(NaN, 0)` on a one-node tree is rejected
with `InvalidArgument` and the tree is returned unchanged. -/
theorem setter_rejects_nonfinite_witness :
    applySetter [{}] (SetterCall.setPosition 0 FVal.nan (FVal.fin 0)) =
      ([{}], some UIError.InvalidArgument) :=
  setter_rejects_nonfinite [{}] (SetterCall.setPosition 0 FVal.nan (FVal.fin 0)) rfl

/-- Every stored parent back-reference points into the store (true of any
tree built from real `RectTransform` objects, whose parents are object
pointers). -/
def ParentsValid (σ : UITree) : Bool :=
  σ.all fun nd =>
    match nd.parent with
    | none => true
    | some p => decide (p < σ.length)

lemma parentOf_valid (σ : UITree) (hwf : ParentsValid σ = true) (v b : ℕ)
    (h : parentOf σ v = some b) : b < σ.length := by
  unfold parentOf at h
  cases hg : σ[v]? with
  | none => rw [hg] at h; simp at h
  | some nd =>
      rw [hg] at h
      have hb : nd.parent = some b := h
      have hmem : nd ∈ σ := List.getElem?_mem hg
      unfold ParentsValid at hwf
      rw [List.all_eq_true] at hwf
      have := hwf nd hmem
      rw [hb] at this
      simpa using this

lemma parentOf_modifyNode_keep (τ : UITree) (t : ℕ) (f : RectTransform → RectTransform)
    (hf : ∀ nd, (f nd).parent = nd.parent) (m : ℕ) :
    parentOf (modifyNode τ t f) m = parentOf τ m := by
  by_cases hmt : m = t
  · subst hmt
    cases hg : τ[m]? with
    | none =>
        unfold modifyNode
        rw [hg]
    | some r =>
        unfold parentOf
        rw [getElem?_modifyNode_self τ m f r hg, hg]
        exact hf r
  · unfold parentOf
    rw [getElem?_modifyNode_other τ t m f hmt]

lemma parentOf_markDirtyAll (τ : UITree) (n m : ℕ) :
    parentOf (markDirtyAll τ n) m = parentOf τ m := by
  unfold parentOf markDirtyAll
  rw [mapWithIndex_getElem?]
  cases τ[m]? with
  | none => rfl
  | some r =>
      simp only [Option.map_some']
      split <;> rfl

lemma iterParent_transfer (σ σ' : UITree) (B : ℕ)
    (hOther : ∀ m, m ≠ B → parentOf σ' m = parentOf σ m) :
    ∀ k n x, iterParent σ' k n = some x →
      (∃ i, i < k ∧ iterParent σ' i n = some B) ∨ iterParent σ k n = some x := by
  intro k
  induction k with
  | zero => intro n x h; exact Or.inr h
  | succ k ih =>
      intro n x h
      by_cases hnB : n = B
      · exact Or.inl ⟨0, by omega, by simp [iterParent, hnB]⟩
      · unfold iterParent at h
        rw [hOther n hnB] at h
        cases hp : parentOf σ n with
        | none => rw [hp] at h; simp at h
        | some p =>
            rw [hp] at h
            rcases ih p x h with ⟨i, hik, hiB⟩ | hold
            · refine Or.inl ⟨i + 1, by omega, ?_⟩
              unfold iterParent
              rw [hOther n hnB, hp]
              exact hiB
            · refine Or.inr ?_
              unfold iterParent
              rw [hp]
              exact hold

lemma iterParent_hit_transfer (σ σ' : UITree) (B : ℕ)
    (hOther : ∀ m, m ≠ B → parentOf σ' m = parentOf σ m) :
    ∀ j n, iterParent σ' j n = some B →
      ∃ j2, j2 ≤ j ∧ iterParent σ j2 n = some B := by
  intro j
  induction j with
  | zero => intro n h; exact ⟨0, le_refl 0, h⟩
  | succ j ih =>
      intro n h
      by_cases hnB : n = B
      · exact ⟨0, by omega, by simp [iterParent, hnB]⟩
      · unfold iterParent at h
        rw [hOther n hnB] at h
        cases hp : parentOf σ n with
        | none => rw [hp] at h; simp at h
        | some p =>
            rw [hp] at h
            obtain ⟨j2, hj2, hit⟩ := ih p h
            exact ⟨j2 + 1, by omega, by simp [iterParent, hp, hit]⟩

/-- C2: on an acyclic tree with valid parent references, a `SetParent`
call that would create a cycle — `B.SetParent(A)` where `B` is already an
ancestor of `A` — fails with `CycleError` and returns the tree exactly as
it was (parent pointers, child lists and both subtrees unchanged); and
any `SetParent` call that succeeds preserves acyclicity, so no node ever
becomes its own descendant. -/
theorem setParent_cycle_rejected (σ : UITree) (A B : ℕ)
    (hacyc : AcyclicB σ = true) (hwf : ParentsValid σ = true) :
    (isAncestor σ B A = true → SetParent σ B A = (σ, some UIError.CycleError)) ∧
    (∀ σ', SetParent σ B A = (σ', none) → Acyclic σ') := by
  constructor
  · intro h
    have hmem : B ∈ ancChain σ (σ.length + 1) A := by
      have := of_decide_eq_true h
      exact this
    obtain ⟨k, hk1, hkf, hit⟩ := ancChain_sound σ (σ.length + 1) A B hmem
    obtain ⟨p, hp⟩ := iterParent_first_step σ k A B hk1 hit
    have hAlt : A < σ.length := parentOf_some_lt σ A p hp
    have hBlt : B < σ.length := by
      obtain ⟨k2, rfl⟩ : ∃ k2, k = k2 + 1 := ⟨k - 1, by omega⟩
      rw [iterParent_add σ k2 1] at hit
      cases hv : iterParent σ k2 A with
      | none => rw [hv] at hit; simp at hit
      | some v =>
          rw [hv] at hit
          simp only [Option.some_bind] at hit
          obtain ⟨pv, hpv⟩ := iterParent_first_step σ 1 v B (le_refl 1) hit
          have : iterParent σ 1 v = some B := hit
          unfold iterParent at this
          rw [hpv] at this
          simp only [iterParent] at this
          have hpvB : pv = B := Option.some.inj this
          exact parentOf_valid σ hwf v B (hpvB ▸ hpv)
    have hA : σ[A]? = some σ[A] := List.getElem?_eq_getElem hAlt
    have hB : σ[B]? = some σ[B] := List.getElem?_eq_getElem hBlt
    unfold SetParent
    rw [hB, hA]
    simp [h]
  · intro σ' hsucc
    unfold SetParent at hsucc
    cases hB : σ[B]? with
    | none => rw [hB] at hsucc; simp at hsucc
    | some nd =>
        rw [hB] at hsucc
        cases hA : σ[A]? with
        | none => rw [hA] at hsucc; simp at hsucc
        | some ndA =>
            rw [hA] at hsucc
            have hite : (if ((B == A) || isAncestor σ B A) = true
                then ((σ, some UIError.CycleError) : UITree × Option UIError)
                else (markDirtyAll
                  (modifyNode
                    (modifyNode
                      (match nd.parent with
                        | none => σ
                        | some op => modifyNode σ op (removeChildEntry B))
                      A (appendChildEntry B))
                    B (setParentField (some A))) B, none)) = (σ', none) := hsucc
            by_cases hcond : ((B == A) || isAncestor σ B A) = true
            · rw [if_pos hcond] at hite
              simp at hite
            · rw [if_neg hcond] at hite
              rw [Bool.or_eq_true] at hcond
              push_neg at hcond
              obtain ⟨hBA, hanc⟩ := hcond
              have hBneA : B ≠ A := by simpa using hBA
              have hancF : isAncestor σ B A = false := by
                simpa using hanc
              have hσ' : σ' = markDirtyAll
                  (modifyNode
                    (modifyNode
                      (match nd.parent with
                        | none => σ
                        | some op => modifyNode σ op (removeChildEntry B))
                      A (appendChildEntry B))
                    B (setParentField (some A))) B := by
                have hfst := congrArg Prod.fst hite
                simp at hfst
                exact hfst.symm
              set σa := (match nd.parent with
                | none => σ
                | some op => modifyNode σ op (removeChildEntry B)) with hσa
              set σb := modifyNode σa A (appendChildEntry B) with hσb
              set σc := modifyNode σb B (setParentField (some A)) with hσc
              have hpa : ∀ m, parentOf σa m = parentOf σ m := by
                intro m
                rw [hσa]
                cases hpar : nd.parent with
                | none => rfl
                | some op =>
                    exact parentOf_modifyNode_keep σ op (removeChildEntry B)
                      (fun x => rfl) m
              have hpb : ∀ m, parentOf σb m = parentOf σ m := by
                intro m
                rw [hσb]
                rw [parentOf_modifyNode_keep σa A (appendChildEntry B) (fun x => rfl) m]
                exact hpa m
              have hlenB : B < σb.length := by
                have h1 : σb.length = σa.length := modifyNode_length σa A _
                have h2 : σa.length = σ.length := by
                  rw [hσa]
                  cases nd.parent with
                  | none => rfl
                  | some op => exact modifyNode_length σ op _
                have hBlt : B < σ.length := (List.getElem?_eq_some.mp hB).1
                omega
              have hgb : σb[B]? = some σb[B] := List.getElem?_eq_getElem hlenB
              have hpcB : parentOf σc B = some A := by
                unfold parentOf
                rw [hσc, getElem?_modifyNode_self σb B (setParentField (some A)) σb[B] hgb]
                rfl
              have hpcO : ∀ m, m ≠ B → parentOf σc m = parentOf σ m := by
                intro m hm
                have h1 : parentOf σc m = parentOf σb m := by
                  unfold parentOf
                  rw [hσc, getElem?_modifyNode_other σb B m _ hm]
                rw [h1]
                exact hpb m
              have hpB' : parentOf σ' B = some A := by
                rw [hσ', parentOf_markDirtyAll]
                exact hpcB
              have hpO' : ∀ m, m ≠ B → parentOf σ' m = parentOf σ m := by
                intro m hm
                rw [hσ', parentOf_markDirtyAll]
                exact hpcO m hm
              have hacy : Acyclic σ := acyclic_of_acyclicB σ hacyc
              intro n k hk hcyc
              rcases iterParent_transfer σ σ' B hpO' k n n hcyc with ⟨i, hik, hiB⟩ | hold
              · have hsplit : iterParent σ' (i + (k - i)) n = some n := by
                  rw [show i + (k - i) = k from by omega]
                  exact hcyc
                rw [iterParent_add, hiB] at hsplit
                simp only [Option.some_bind] at hsplit
                have hcycB : iterParent σ' ((k - i) + i) B = some B := by
                  rw [iterParent_add, hsplit]
                  simp only [Option.some_bind]
                  exact hiB
                have hk2 : (k - i) + i = k := by omega
                rw [hk2] at hcycB
                obtain ⟨k3, rfl⟩ : ∃ k3, k = k3 + 1 := ⟨k - 1, by omega⟩
                have hstep : iterParent σ' (k3 + 1) B = some B := hcycB
                unfold iterParent at hstep
                rw [hpB'] at hstep
                obtain ⟨j2, hj2, hit2⟩ := iterParent_hit_transfer σ σ' B hpO' k3 A hstep
                cases hj20 : j2 with
                | zero =>
                    rw [hj20] at hit2
                    simp only [iterParent] at hit2
                    exact hBneA (Option.some.inj hit2).symm
                | succ j3 =>
                    rw [hj20] at hit2
                    obtain ⟨j4, hj41, hj4L, hit4⟩ :=
                      reaches_shortcut σ A B (j3 + 1) (by omega) hit2
                    have hmem : B ∈ ancChain σ (σ.length + 1) A :=
                      ancChain_complete σ j4 (σ.length + 1) A B hj41 (by omega) hit4
                    have : isAncestor σ B A = true := decide_eq_true hmem
                    rw [hancF] at this
                    exact Bool.false_ne_true this
              · exact hacy n k hk hold

/-- Witness for C2: in the two-node tree where node 0 is the parent of
node 1, `SetParent(0, 1)` (making the ancestor a child of its descendant)
fails with `CycleError` and returns the tree unchanged. -/
theorem setParent_cycle_rejected_witness :
    SetParent [{ children := [1] }, { parent := some 0 }] 0 1 =
      ([{ children := [1] }, { parent := some 0 }], some UIError.CycleError) :=
  (setParent_cycle_rejected [{ children := [1] }, { parent := some 0 }] 1 0
    (by decide) (by decide)).1 (by decide)

/-- The local matrix of the node stored at `n`, from its current fields. -/
def nodeLocalMatrix (T : TrigModel) (σ : UITree) (n : ℕ) : Matrix4 :=
  match σ[n]? with
  | some r => localMatrix T r.position r.size r.scale r.pivot r.rotation
  | none => Matrix4.Identity

/-- Modelled from the spec: recomputation of a node's local-to-world
matrix from current field values (spec.md §4.1): the node's own local
matrix composed under its parent chain, root matrices first; fuel bounds
the walk. -/
def recomputeL2W (T : TrigModel) (σ : UITree) : ℕ → ℕ → Matrix4
  | 0, _ => Matrix4.Identity
  | fuel + 1, n =>
      match parentOf σ n with
      | none => nodeLocalMatrix T σ n
      | some p => (recomputeL2W T σ fuel p).mul (nodeLocalMatrix T σ n)

/-- The cache-coherence invariant of spec.md §3: every node whose dirty
flag is false has cached matrices equal to what recomputation from the
current field values of the node and its ancestors would produce. -/
def CacheOK (T : TrigModel) (σ : UITree) : Prop :=
  ∀ n r, σ[n]? = some r → r.isDirty = false →
    r.localToWorld = recomputeL2W T σ (σ.length + 1) n ∧
    r.worldToLocal = (recomputeL2W T σ (σ.length + 1) n).Inverse

/-- A mutating RectTransform call: a field setter or a reparent. -/
inductive MutCall
  | setter (c : SetterCall)
  | reparent (self np : ℕ)

/-- The node a mutating call targets (for a reparent, the moved node). -/
def MutCall.target : MutCall → ℕ
  | .setter c => c.target
  | .reparent self _ => self

/-- Dispatch of a mutating call. -/
def applyMut (σ : UITree) : MutCall → UITree × Option UIError
  | .setter c => applySetter σ c
  | .reparent self np => SetParent σ self np

lemma ancChain_congr (σ1 σ2 : UITree) (hp : ∀ m, parentOf σ1 m = parentOf σ2 m) :
    ∀ fuel n, ancChain σ1 fuel n = ancChain σ2 fuel n := by
  intro fuel
  induction fuel with
  | zero => intro n; rfl
  | succ fuel ih =>
      intro n
      unfold ancChain
      rw [hp n]
      cases parentOf σ2 n with
      | none => rfl
      | some p => simp only []; rw [ih p]

lemma recomputeL2W_congr (T : TrigModel) (σ1 σ2 : UITree)
    (hp : ∀ m, parentOf σ1 m = parentOf σ2 m)
    (hl : ∀ m, nodeLocalMatrix T σ1 m = nodeLocalMatrix T σ2 m) :
    ∀ fuel n, recomputeL2W T σ1 fuel n = recomputeL2W T σ2 fuel n := by
  intro fuel
  induction fuel with
  | zero => intro n; rfl
  | succ fuel ih =>
      intro n
      unfold recomputeL2W
      rw [hp n, hl n]
      cases parentOf σ2 n with
      | none => rfl
      | some p => simp only []; rw [ih p]

lemma recomputeL2W_avoid (T : TrigModel) (σ σ2 : UITree) (t : ℕ)
    (hpar : ∀ m, m ≠ t → parentOf σ2 m = parentOf σ m)
    (hloc : ∀ m, m ≠ t → nodeLocalMatrix T σ2 m = nodeLocalMatrix T σ m) :
    ∀ fuel m, ¬ (t = m ∨ t ∈ ancChain σ2 fuel m) →
      recomputeL2W T σ2 fuel m = recomputeL2W T σ fuel m := by
  intro fuel
  induction fuel with
  | zero => intro m _; rfl
  | succ fuel ih =>
      intro m hm
      push_neg at hm
      obtain ⟨htm, hchain⟩ := hm
      have hmt : m ≠ t := fun he => htm he.symm
      unfold recomputeL2W
      rw [hpar m hmt, hloc m hmt]
      cases hp : parentOf σ m with
      | none => rfl
      | some p =>
          have hchain2 : t ∉ ancChain σ2 (fuel + 1) m := hchain
          unfold ancChain at hchain2
          rw [hpar m hmt, hp] at hchain2
          rw [List.mem_cons] at hchain2
          push_neg at hchain2
          obtain ⟨htp, hrest⟩ := hchain2
          simp only []
          rw [ih p (by push_neg; exact ⟨htp, hrest⟩)]

lemma markDirtyAll_length (τ : UITree) (n : ℕ) :
    (markDirtyAll τ n).length = τ.length := by
  unfold markDirtyAll
  exact mapWithIndex_length _ τ 0

lemma getElem?_markDirtyAll (τ : UITree) (n m : ℕ) :
    (markDirtyAll τ n)[m]? =
      (τ[m]?).map (fun r => if inSubtree τ n m then { r with isDirty := true } else r) := by
  unfold markDirtyAll
  rw [mapWithIndex_getElem?]
  simp

lemma nodeLocalMatrix_markDirtyAll (T : TrigModel) (τ : UITree) (n m : ℕ) :
    nodeLocalMatrix T (markDirtyAll τ n) m = nodeLocalMatrix T τ m := by
  unfold nodeLocalMatrix
  rw [getElem?_markDirtyAll]
  cases τ[m]? with
  | none => rfl
  | some r =>
      simp only [Option.map_some']
      split <;> rfl

lemma inSubtree_congr (σ1 σ2 : UITree) (hp : ∀ m, parentOf σ1 m = parentOf σ2 m)
    (hlen : σ1.length = σ2.length) (a b : ℕ) :
    inSubtree σ1 a b = inSubtree σ2 a b := by
  unfold inSubtree isAncestor
  rw [ancChain_congr σ1 σ2 hp, hlen]

lemma parentOf_markDirtyAll_all (τ : UITree) (n : ℕ) :
    ∀ m, parentOf (markDirtyAll τ n) m = parentOf τ m :=
  fun m => parentOf_markDirtyAll τ n m

lemma mutation_post (T : TrigModel) (σ σc : UITree) (t : ℕ)
    (hok : CacheOK T σ)
    (hlen : σc.length = σ.length)
    (hpar : ∀ m, m ≠ t → parentOf σc m = parentOf σ m)
    (hloc : ∀ m, m ≠ t → nodeLocalMatrix T σc m = nodeLocalMatrix T σ m)
    (hdirty : ∀ m, m ≠ t → nodeDirty σc m = nodeDirty σ m)
    (hl2w : ∀ m, m ≠ t → nodeL2W σc m = nodeL2W σ m)
    (hw2l : ∀ m, m ≠ t → nodeW2L σc m = nodeW2L σ m) :
    CacheOK T (markDirtyAll σc t) ∧
    ∀ m, (inSubtree (markDirtyAll σc t) t m = true →
            nodeDirty (markDirtyAll σc t) m = true) ∧
         (inSubtree (markDirtyAll σc t) t m = false →
            nodeDirty (markDirtyAll σc t) m = nodeDirty σ m ∧
            nodeL2W (markDirtyAll σc t) m = nodeL2W σ m ∧
            nodeW2L (markDirtyAll σc t) m = nodeW2L σ m) := by
  have hpm : ∀ m, parentOf (markDirtyAll σc t) m = parentOf σc m :=
    parentOf_markDirtyAll_all σc t
  have hlenM : (markDirtyAll σc t).length = σc.length := markDirtyAll_length σc t
  have hsub : ∀ a b, inSubtree (markDirtyAll σc t) a b = inSubtree σc a b :=
    fun a b => inSubtree_congr _ _ hpm hlenM a b
  constructor
  · intro n r' hget' hclean'
    rw [getElem?_markDirtyAll σc t n] at hget'
    cases hg : σc[n]? with
    | none => rw [hg] at hget'; simp at hget'
    | some rc =>
        rw [hg] at hget'
        simp only [Option.map_some'] at hget'
        have hr' : r' = if inSubtree σc t n then { rc with isDirty := true } else rc :=
          (Option.some.inj hget').symm
        by_cases hin : inSubtree σc t n = true
        · rw [hr', if_pos hin] at hclean'
          simp at hclean'
        · have hout : inSubtree σc t n = false := by
            cases hq : inSubtree σc t n
            · rfl
            · exact absurd hq hin
          have hrc : r' = rc := by rw [hr', if_neg hin]
          have hnt : n ≠ t := by
            intro he
            subst he
            unfold inSubtree at hout
            simp at hout
          have hnlt : n < σ.length := by
            have := (List.getElem?_eq_some.mp hg).1
            omega
          have hgσ : σ[n]? = some σ[n] := List.getElem?_eq_getElem hnlt
          have hd1 : nodeDirty σc n = rc.isDirty := by unfold nodeDirty; rw [hg]
          have hd2 : nodeDirty σ n = σ[n].isDirty := by unfold nodeDirty; rw [hgσ]
          have hrcd : rc.isDirty = false := by rw [← hrc]; exact hclean'
          have hdf : σ[n].isDirty = false := by
            rw [← hd2, ← hdirty n hnt, hd1]
            exact hrcd
          have hcok := hok n σ[n] hgσ hdf
          have hc1 : rc.localToWorld = σ[n].localToWorld := by
            have e1 : nodeL2W σc n = rc.localToWorld := by unfold nodeL2W; rw [hg]
            have e2 : nodeL2W σ n = σ[n].localToWorld := by unfold nodeL2W; rw [hgσ]
            rw [← e1, ← e2]
            exact hl2w n hnt
          have hc2 : rc.worldToLocal = σ[n].worldToLocal := by
            have e1 : nodeW2L σc n = rc.worldToLocal := by unfold nodeW2L; rw [hg]
            have e2 : nodeW2L σ n = σ[n].worldToLocal := by unfold nodeW2L; rw [hgσ]
            rw [← e1, ← e2]
            exact hw2l n hnt
          have hrec : recomputeL2W T (markDirtyAll σc t) ((markDirtyAll σc t).length + 1) n =
              recomputeL2W T σ (σ.length + 1) n := by
            have hlen2 : (markDirtyAll σc t).length = σ.length := by omega
            rw [hlen2]
            have step1 : recomputeL2W T (markDirtyAll σc t) (σ.length + 1) n =
                recomputeL2W T σc (σ.length + 1) n :=
              recomputeL2W_congr T _ σc hpm
                (fun m => nodeLocalMatrix_markDirtyAll T σc t m) _ n
            rw [step1]
            apply recomputeL2W_avoid T σ σc t hpar hloc
            push_neg
            constructor
            · exact fun he => hnt he.symm
            · unfold inSubtree isAncestor at hout
              rw [Bool.or_eq_false_iff] at hout
              have h2 := hout.2
              rw [hlen] at h2
              simpa using h2
          constructor
          · rw [hrc, hc1, hrec]
            exact hcok.1
          · rw [hrc, hc2, hrec]
            exact hcok.2
  · intro m
    constructor
    · intro hin
      rw [hsub] at hin
      unfold nodeDirty
      rw [getElem?_markDirtyAll σc t m]
      cases hg : σc[m]? with
      | none => rfl
      | some r => simp [hin]
    · intro hout
      rw [hsub] at hout
      have hmt : m ≠ t := by
        intro he
        subst he
        unfold inSubtree at hout
        simp at hout
      have hentry : (markDirtyAll σc t)[m]? = σc[m]? := by
        rw [getElem?_markDirtyAll σc t m]
        cases σc[m]? with
        | none => rfl
        | some r => simp [hout]
      have hd : nodeDirty (markDirtyAll σc t) m = nodeDirty σc m := by
        unfold nodeDirty
        rw [hentry]
      have hl : nodeL2W (markDirtyAll σc t) m = nodeL2W σc m := by
        unfold nodeL2W
        rw [hentry]
      have hw : nodeW2L (markDirtyAll σc t) m = nodeW2L σc m := by
        unfold nodeW2L
        rw [hentry]
      exact ⟨hd.trans (hdirty m hmt), hl.trans (hl2w m hmt), hw.trans (hw2l m hmt)⟩

lemma nodeProj_congr_of_entry (σ1 σ2 : UITree) (m : ℕ) (h : σ1[m]? = σ2[m]?) :
    parentOf σ1 m = parentOf σ2 m ∧ nodeDirty σ1 m = nodeDirty σ2 m ∧
    nodeL2W σ1 m = nodeL2W σ2 m ∧ nodeW2L σ1 m = nodeW2L σ2 m ∧
    (∀ T, nodeLocalMatrix T σ1 m = nodeLocalMatrix T σ2 m) := by
  unfold parentOf nodeDirty nodeL2W nodeW2L nodeLocalMatrix
  rw [h]
  exact ⟨rfl, rfl, rfl, rfl, fun T => rfl⟩

lemma nodeDirty_modifyNode_keep (τ : UITree) (t : ℕ) (f : RectTransform → RectTransform)
    (hf : ∀ nd, (f nd).isDirty = nd.isDirty) (m : ℕ) :
    nodeDirty (modifyNode τ t f) m = nodeDirty τ m := by
  by_cases hmt : m = t
  · subst hmt
    cases hg : τ[m]? with
    | none => unfold modifyNode; rw [hg]
    | some r =>
        unfold nodeDirty
        rw [getElem?_modifyNode_self τ m f r hg, hg]
        exact hf r
  · unfold nodeDirty
    rw [getElem?_modifyNode_other τ t m f hmt]

lemma nodeL2W_modifyNode_keep (τ : UITree) (t : ℕ) (f : RectTransform → RectTransform)
    (hf : ∀ nd, (f nd).localToWorld = nd.localToWorld) (m : ℕ) :
    nodeL2W (modifyNode τ t f) m = nodeL2W τ m := by
  by_cases hmt : m = t
  · subst hmt
    cases hg : τ[m]? with
    | none => unfold modifyNode; rw [hg]
    | some r =>
        unfold nodeL2W
        rw [getElem?_modifyNode_self τ m f r hg, hg]
        exact hf r
  · unfold nodeL2W
    rw [getElem?_modifyNode_other τ t m f hmt]

lemma nodeW2L_modifyNode_keep (τ : UITree) (t : ℕ) (f : RectTransform → RectTransform)
    (hf : ∀ nd, (f nd).worldToLocal = nd.worldToLocal) (m : ℕ) :
    nodeW2L (modifyNode τ t f) m = nodeW2L τ m := by
  by_cases hmt : m = t
  · subst hmt
    cases hg : τ[m]? with
    | none => unfold modifyNode; rw [hg]
    | some r =>
        unfold nodeW2L
        rw [getElem?_modifyNode_self τ m f r hg, hg]
        exact hf r
  · unfold nodeW2L
    rw [getElem?_modifyNode_other τ t m f hmt]

lemma nodeLocalMatrix_modifyNode_keep (T : TrigModel) (τ : UITree) (t : ℕ)
    (f : RectTransform → RectTransform)
    (hf : ∀ nd, (f nd).position = nd.position ∧ (f nd).size = nd.size ∧
      (f nd).scale = nd.scale ∧ (f nd).pivot = nd.pivot ∧
      (f nd).rotation = nd.rotation) (m : ℕ) :
    nodeLocalMatrix T (modifyNode τ t f) m = nodeLocalMatrix T τ m := by
  by_cases hmt : m = t
  · subst hmt
    cases hg : τ[m]? with
    | none => unfold modifyNode; rw [hg]
    | some r =>
        unfold nodeLocalMatrix
        rw [getElem?_modifyNode_self τ m f r hg, hg]
        obtain ⟨h1, h2, h3, h4, h5⟩ := hf r
        simp only []
        rw [h1, h2, h3, h4, h5]
  · unfold nodeLocalMatrix
    rw [getElem?_modifyNode_other τ t m f hmt]

/-- C4: dirty propagation. Starting from a tree satisfying the cache
invariant (clean nodes cache exactly the recomputed matrices), any
mutating RectTransform call preserves the invariant; and when the call
succeeds, every node in the target's subtree (the node and its
descendants) is dirty afterwards, while every node outside that subtree
keeps its dirty flag and both cached matrices exactly unchanged. -/
theorem dirty_propagation (T : TrigModel) (σ : UITree) (c : MutCall)
    (hok : CacheOK T σ) :
    CacheOK T (applyMut σ c).1 ∧
    ((applyMut σ c).2 = none →
      ∀ m, (inSubtree (applyMut σ c).1 c.target m = true →
              nodeDirty (applyMut σ c).1 m = true) ∧
           (inSubtree (applyMut σ c).1 c.target m = false →
              nodeDirty (applyMut σ c).1 m = nodeDirty σ m ∧
              nodeL2W (applyMut σ c).1 m = nodeL2W σ m ∧
              nodeW2L (applyMut σ c).1 m = nodeW2L σ m)) := by
  cases c with
  | setter s =>
      by_cases hfin : s.finiteArgs = true
      · cases hg : σ[s.target]? with
        | none =>
            have herr : applyMut σ (MutCall.setter s) = (σ, some UIError.InvalidArgument) := by
              show applySetter σ s = _
              unfold applySetter
              rw [if_pos hfin, hg]
            rw [herr]
            exact ⟨hok, by intro h; simp at h⟩
        | some nd =>
            have hsucc : applyMut σ (MutCall.setter s) =
                (markDirtyAll (modifyNode σ s.target s.fieldUpdate) s.target, none) := by
              show applySetter σ s = _
              unfold applySetter
              rw [if_pos hfin, hg]
            rw [hsucc]
            have hprj : ∀ m, m ≠ s.target →
                (modifyNode σ s.target s.fieldUpdate)[m]? = σ[m]? :=
              fun m hm => getElem?_modifyNode_other σ s.target m _ hm
            have post := mutation_post T σ (modifyNode σ s.target s.fieldUpdate) s.target hok
              (modifyNode_length σ s.target _)
              (fun m hm => (nodeProj_congr_of_entry _ σ m (hprj m hm)).1)
              (fun m hm => (nodeProj_congr_of_entry _ σ m (hprj m hm)).2.2.2.2 T)
              (fun m hm => (nodeProj_congr_of_entry _ σ m (hprj m hm)).2.1)
              (fun m hm => (nodeProj_congr_of_entry _ σ m (hprj m hm)).2.2.1)
              (fun m hm => (nodeProj_congr_of_entry _ σ m (hprj m hm)).2.2.2.1)
            exact ⟨post.1, fun _ => post.2⟩
      · have herr : applyMut σ (MutCall.setter s) = (σ, some UIError.InvalidArgument) := by
          show applySetter σ s = _
          unfold applySetter
          rw [if_neg hfin]
        rw [herr]
        exact ⟨hok, by intro h; simp at h⟩
  | reparent self np =>
      cases hB : σ[self]? with
      | none =>
          have herr : applyMut σ (MutCall.reparent self np) =
              (σ, some UIError.InvalidArgument) := by
            show SetParent σ self np = _
            unfold SetParent
            rw [hB]
          rw [herr]
          exact ⟨hok, by intro h; simp at h⟩
      | some nd =>
          cases hA : σ[np]? with
          | none =>
              have herr : applyMut σ (MutCall.reparent self np) =
                  (σ, some UIError.InvalidArgument) := by
                show SetParent σ self np = _
                unfold SetParent
                rw [hB, hA]
              rw [herr]
              exact ⟨hok, by intro h; simp at h⟩
          | some ndA =>
              have hstep : SetParent σ self np =
                  (if ((self == np) || isAncestor σ self np) = true
                    then ((σ, some UIError.CycleError) : UITree × Option UIError)
                    else (markDirtyAll
                      (modifyNode
                        (modifyNode
                          (match nd.parent with
                            | none => σ
                            | some op => modifyNode σ op (removeChildEntry self))
                          np (appendChildEntry self))
                        self (setParentField (some np))) self, none)) := by
                unfold SetParent
                rw [hB, hA]
              by_cases hcond : ((self == np) || isAncestor σ self np) = true
              · have herr : applyMut σ (MutCall.reparent self np) =
                    (σ, some UIError.CycleError) := by
                  show SetParent σ self np = _
                  rw [hstep, if_pos hcond]
                rw [herr]
                exact ⟨hok, by intro h; simp at h⟩
              · set σa := (match nd.parent with
                  | none => σ
                  | some op => modifyNode σ op (removeChildEntry self)) with hσa
                set σb := modifyNode σa np (appendChildEntry self) with hσb
                set σc := modifyNode σb self (setParentField (some np)) with hσc
                have hsucc : applyMut σ (MutCall.reparent self np) =
                    (markDirtyAll σc self, none) := by
                  show SetParent σ self np = _
                  rw [hstep, if_neg hcond]
                rw [hsucc]
                have hlena : σa.length = σ.length := by
                  rw [hσa]
                  cases nd.parent with
                  | none => rfl
                  | some op => exact modifyNode_length σ op _
                have hlenb : σb.length = σ.length := by
                  rw [hσb, modifyNode_length σa np _]
                  exact hlena
                have hlenc : σc.length = σ.length := by
                  rw [hσc, modifyNode_length σb self _]
                  exact hlenb
                have hpa : ∀ m, parentOf σa m = parentOf σ m := by
                  intro m
                  rw [hσa]
                  cases nd.parent with
                  | none => rfl
                  | some op =>
                      exact parentOf_modifyNode_keep σ op (removeChildEntry self)
                        (fun x => rfl) m
                have hpar : ∀ m, m ≠ self → parentOf σc m = parentOf σ m := by
                  intro m hm
                  rw [hσc]
                  unfold parentOf
                  rw [getElem?_modifyNode_other σb self m _ hm]
                  have : parentOf σb m = parentOf σ m := by
                    rw [hσb]
                    rw [parentOf_modifyNode_keep σa np (appendChildEntry self)
                      (fun x => rfl) m]
                    exact hpa m
                  exact this
                have hda : ∀ m, nodeDirty σa m = nodeDirty σ m := by
                  intro m
                  rw [hσa]
                  cases nd.parent with
                  | none => rfl
                  | some op =>
                      exact nodeDirty_modifyNode_keep σ op (removeChildEntry self)
                        (fun x => rfl) m
                have hdirty : ∀ m, m ≠ self → nodeDirty σc m = nodeDirty σ m := by
                  intro m hm
                  rw [hσc, nodeDirty_modifyNode_keep σb self (setParentField (some np))
                      (fun x => rfl) m,
                    hσb, nodeDirty_modifyNode_keep σa np (appendChildEntry self)
                      (fun x => rfl) m]
                  exact hda m
                have hla : ∀ m, nodeL2W σa m = nodeL2W σ m := by
                  intro m
                  rw [hσa]
                  cases nd.parent with
                  | none => rfl
                  | some op =>
                      exact nodeL2W_modifyNode_keep σ op (removeChildEntry self)
                        (fun x => rfl) m
                have hl2w : ∀ m, m ≠ self → nodeL2W σc m = nodeL2W σ m := by
                  intro m hm
                  rw [hσc, nodeL2W_modifyNode_keep σb self (setParentField (some np))
                      (fun x => rfl) m,
                    hσb, nodeL2W_modifyNode_keep σa np (appendChildEntry self)
                      (fun x => rfl) m]
                  exact hla m
                have hwa : ∀ m, nodeW2L σa m = nodeW2L σ m := by
                  intro m
                  rw [hσa]
                  cases nd.parent with
                  | none => rfl
                  | some op =>
                      exact nodeW2L_modifyNode_keep σ op (removeChildEntry self)
                        (fun x => rfl) m
                have hw2l : ∀ m, m ≠ self → nodeW2L σc m = nodeW2L σ m := by
                  intro m hm
                  rw [hσc, nodeW2L_modifyNode_keep σb self (setParentField (some np))
                      (fun x => rfl) m,
                    hσb, nodeW2L_modifyNode_keep σa np (appendChildEntry self)
                      (fun x => rfl) m]
                  exact hwa m
                have hma : ∀ m, nodeLocalMatrix T σa m = nodeLocalMatrix T σ m := by
                  intro m
                  rw [hσa]
                  cases nd.parent with
                  | none => rfl
                  | some op =>
                      exact nodeLocalMatrix_modifyNode_keep T σ op (removeChildEntry self)
                        (fun x => ⟨rfl, rfl, rfl, rfl, rfl⟩) m
                have hloc : ∀ m, m ≠ self → nodeLocalMatrix T σc m = nodeLocalMatrix T σ m := by
                  intro m hm
                  rw [hσc, nodeLocalMatrix_modifyNode_keep T σb self
                      (setParentField (some np)) (fun x => ⟨rfl, rfl, rfl, rfl, rfl⟩) m,
                    hσb, nodeLocalMatrix_modifyNode_keep T σa np
                      (appendChildEntry self) (fun x => ⟨rfl, rfl, rfl, rfl, rfl⟩) m]
                  exact hma m
                have post := mutation_post T σ σc self hok hlenc hpar hloc hdirty hl2w hw2l
                exact ⟨post.1, fun _ => post.2⟩

/-- Witness for C4: on a fresh one-node tree (vacuously cache-coherent,
the node starts dirty), a successful `SetPosition` leaves the target
node dirty. -/
theorem dirty_propagation_witness :
    nodeDirty (applyMut [{}]
      (MutCall.setter (SetterCall.setPosition 0 (FVal.fin 3) (FVal.fin 4)))).1 0 = true := by
  have hok : CacheOK trigZero [{}] := by
    intro n r hg hd
    match n, hg with
    | 0, hg =>
        have hr : ({} : RectTransform) = r := Option.some.inj hg
        rw [← hr] at hd
        exact absurd hd (by decide)
    | n + 1, hg => simp at hg
  have h := (dirty_propagation trigZero [{}]
    (MutCall.setter (SetterCall.setPosition 0 (FVal.fin 3) (FVal.fin 4))) hok).2
    (by rfl) 0
  exact h.1 (by rfl)

/-- `AnchorPreset` from UISystem.h lines 95-112. -/
inductive AnchorPreset
  | TopLeft
  | TopCenter
  | TopRight
  | MiddleLeft
  | MiddleCenter
  | MiddleRight
  | BottomLeft
  | BottomCenter
  | BottomRight
  | StretchTop
  | StretchMiddle
  | StretchBottom
  | StretchLeft
  | StretchCenter
  | StretchRight
  | StretchFull
deriving DecidableEq, Repr

/-- Modelled from the spec: the anchor values each preset maps to
(spec.md §4.1): x and y components each 0, 1/2 or 1, with y = 0 at the
top edge; the stretch presets differ in min/max on the stretched axis. -/
def presetAnchors : AnchorPreset → Vector2 × Vector2
  | .TopLeft => (⟨0, 0⟩, ⟨0, 0⟩)
  | .TopCenter => (⟨1/2, 0⟩, ⟨1/2, 0⟩)
  | .TopRight => (⟨1, 0⟩, ⟨1, 0⟩)
  | .MiddleLeft => (⟨0, 1/2⟩, ⟨0, 1/2⟩)
  | .MiddleCenter => (⟨1/2, 1/2⟩, ⟨1/2, 1/2⟩)
  | .MiddleRight => (⟨1, 1/2⟩, ⟨1, 1/2⟩)
  | .BottomLeft => (⟨0, 1⟩, ⟨0, 1⟩)
  | .BottomCenter => (⟨1/2, 1⟩, ⟨1/2, 1⟩)
  | .BottomRight => (⟨1, 1⟩, ⟨1, 1⟩)
  | .StretchTop => (⟨0, 0⟩, ⟨1, 0⟩)
  | .StretchMiddle => (⟨0, 1/2⟩, ⟨1, 1/2⟩)
  | .StretchBottom => (⟨0, 1⟩, ⟨1, 1⟩)
  | .StretchLeft => (⟨0, 0⟩, ⟨0, 1⟩)
  | .StretchCenter => (⟨1/2, 0⟩, ⟨1/2, 1⟩)
  | .StretchRight => (⟨1, 0⟩, ⟨1, 1⟩)
  | .StretchFull => (⟨0, 0⟩, ⟨1, 1⟩)

/-- Modelled from the spec: resolution of one node's world rectangle
within its parent's rectangle (spec.md §4.1). Rectangles are
(left, top, right, bottom), the `GetWorldRect` format (x,y top-left,
z,w bottom-right). Per axis: equal anchors give a fixed-size rectangle
whose pivot sits at the anchor point displaced by `position`; unequal
anchors (stretch) put the edges at the two anchor points inset by the
offsets. -/
def resolveRect (pr : Vector4) (r : RectTransform) : Vector4 :=
  let pw := pr.z - pr.x
  let ph := pr.w - pr.y
  let lE :=
    if r.anchorMin.x = r.anchorMax.x then
      pr.x + r.anchorMin.x * pw + r.position.x - r.pivot.x * r.size.x
    else pr.x + r.anchorMin.x * pw + r.offsets.x
  let rE :=
    if r.anchorMin.x = r.anchorMax.x then lE + r.size.x
    else pr.x + r.anchorMax.x * pw - r.offsets.z
  let tE :=
    if r.anchorMin.y = r.anchorMax.y then
      pr.y + r.anchorMin.y * ph + r.position.y - r.pivot.y * r.size.y
    else pr.y + r.anchorMin.y * ph + r.offsets.y
  let bE :=
    if r.anchorMin.y = r.anchorMax.y then tE + r.size.y
    else pr.y + r.anchorMax.y * ph - r.offsets.w
  ⟨lE, tE, rE, bE⟩

/-- Modelled from the spec: the recursive world-rectangle computation of
`RectTransform::GetWorldRect` (UISystem.h line 168, body not in the
sources): resolve against the parent's world rectangle, walking the
chain with bounded fuel; a root resolves against the degenerate zero
rectangle. -/
def worldRect (σ : UITree) : ℕ → ℕ → Vector4
  | 0, _ => ⟨0, 0, 0, 0⟩
  | fuel + 1, n =>
      match σ[n]? with
      | none => ⟨0, 0, 0, 0⟩
      | some r =>
          let pr := match r.parent with
            | none => (⟨0, 0, 0, 0⟩ : Vector4)
            | some p => worldRect σ fuel p
          resolveRect pr r

/-- `RectTransform::GetWorldRect` at full fuel. -/
def GetWorldRect (σ : UITree) (n : ℕ) : Vector4 :=
  worldRect σ (σ.length + 1) n

/-- The stored offsets of node `n`. -/
def nodeOffsets (σ : UITree) (n : ℕ) : Option Vector4 :=
  (σ[n]?).map RectTransform.offsets

/-- The preserve-position solve of `SetAnchorPreset` (spec.md §4.1): with
the new anchors `aMin`/`aMax` in place, recompute position and size on
fixed axes and offsets on stretch axes from the node's current world
rectangle `w = resolveRect pr r`, so the world rectangle is unchanged. -/
def preserveUpdate (pr : Vector4) (aMin aMax : Vector2) (r : RectTransform) :
    RectTransform :=
  let w := resolveRect pr r
  let pw := pr.z - pr.x
  let ph := pr.w - pr.y
  let px := if aMin.x = aMax.x then
      w.x + r.pivot.x * (w.z - w.x) - (pr.x + aMin.x * pw)
    else r.position.x
  let py := if aMin.y = aMax.y then
      w.y + r.pivot.y * (w.w - w.y) - (pr.y + aMin.y * ph)
    else r.position.y
  let sx := if aMin.x = aMax.x then w.z - w.x else r.size.x
  let sy := if aMin.y = aMax.y then w.w - w.y else r.size.y
  let ox := if aMin.x = aMax.x then r.offsets.x else w.x - (pr.x + aMin.x * pw)
  let oz := if aMin.x = aMax.x then r.offsets.z else (pr.x + aMax.x * pw) - w.z
  let oy := if aMin.y = aMax.y then r.offsets.y else w.y - (pr.y + aMin.y * ph)
  let ow := if aMin.y = aMax.y then r.offsets.w else (pr.y + aMax.y * ph) - w.w
  { r with
    anchorMin := aMin
    anchorMax := aMax
    position := ⟨px, py⟩
    size := ⟨sx, sy⟩
    offsets := ⟨ox, oy, oz, ow⟩ }

/-- Modelled from the spec: `RectTransform::SetAnchorPreset` (UISystem.h
line 139, body not in the sources; spec.md §4.1): store the preset's
anchors; when `preservePosition` is true, recompute position and size on
fixed axes and offsets on stretch axes from the current world rectangle
so that the world rectangle is unchanged; when false, reset the offsets
to zero. The node and its subtree are marked dirty as for any setter. -/
def SetAnchorPreset (σ : UITree) (n : ℕ) (preset : AnchorPreset)
    (preservePosition : Bool) : UITree :=
  match σ[n]? with
  | none => σ
  | some r =>
      let aMin := (presetAnchors preset).1
      let aMax := (presetAnchors preset).2
      let upd :=
        if preservePosition then
          let pr := match r.parent with
            | none => (⟨0, 0, 0, 0⟩ : Vector4)
            | some p => worldRect σ σ.length p
          preserveUpdate pr aMin aMax r
        else
          { r with
            anchorMin := aMin
            anchorMax := aMax
            offsets := ⟨0, 0, 0, 0⟩ }
      markDirtyAll (σ.set n upd) n

lemma worldRect_congr (σ1 σ2 : UITree)
    (h : ∀ m : ℕ, (σ1[m]? = none ∧ σ2[m]? = none) ∨
      ∃ r1 r2, σ1[m]? = some r1 ∧ σ2[m]? = some r2 ∧ r1.parent = r2.parent ∧
        ∀ pr, resolveRect pr r1 = resolveRect pr r2) :
    ∀ fuel m, worldRect σ1 fuel m = worldRect σ2 fuel m := by
  intro fuel
  induction fuel with
  | zero => intro m; rfl
  | succ fuel ih =>
      intro m
      unfold worldRect
      rcases h m with ⟨h1, h2⟩ | ⟨r1, r2, h1, h2, hpp, hres⟩
      · rw [h1, h2]
      · rw [h1, h2]
        simp only []
        rw [hpp]
        cases hp : r2.parent with
        | none => exact hres _
        | some p =>
            simp only []
            rw [ih p]
            exact hres _

lemma worldRect_markDirtyAll (τ : UITree) (t : ℕ) (fuel m : ℕ) :
    worldRect (markDirtyAll τ t) fuel m = worldRect τ fuel m := by
  apply worldRect_congr
  intro k
  rw [getElem?_markDirtyAll τ t k]
  cases hg : τ[k]? with
  | none => exact Or.inl ⟨rfl, rfl⟩
  | some r =>
      refine Or.inr ⟨_, r, rfl, rfl, ?_, ?_⟩
      · split <;> rfl
      · intro pr
        split <;> rfl

lemma worldRect_avoid (σ2 σ : UITree) (t : ℕ)
    (hentry : ∀ m, m ≠ t → σ2[m]? = σ[m]?) :
    ∀ fuel m, ¬ (t = m ∨ t ∈ ancChain σ2 fuel m) →
      worldRect σ2 fuel m = worldRect σ fuel m := by
  intro fuel
  induction fuel with
  | zero => intro m _; rfl
  | succ fuel ih =>
      intro m hm
      push_neg at hm
      obtain ⟨htm, hchain⟩ := hm
      have hmt : m ≠ t := fun he => htm he.symm
      unfold worldRect
      rw [hentry m hmt]
      cases hg : σ[m]? with
      | none => rfl
      | some r =>
          simp only []
          cases hp : r.parent with
          | none => rfl
          | some p =>
              simp only []
              have hpar2 : parentOf σ2 m = some p := by
                unfold parentOf
                rw [hentry m hmt, hg]
                exact hp
              have hchain2 := hchain
              unfold ancChain at hchain2
              rw [hpar2] at hchain2
              rw [List.mem_cons] at hchain2
              push_neg at hchain2
              rw [ih p (by push_neg; exact ⟨hchain2.1, hchain2.2⟩)]

lemma parent_not_in_own_chain (σ : UITree) (hacyc : AcyclicB σ = true) (n p : ℕ)
    (hp : parentOf σ n = some p) (fuel : ℕ) :
    ¬ (n = p ∨ n ∈ ancChain σ fuel p) := by
  have hA : Acyclic σ := acyclic_of_acyclicB σ hacyc
  intro h
  rcases h with he | hmem
  · have hcyc : iterParent σ 1 n = some n := by
      simp [iterParent, hp, ← he]
    exact hA n 1 (le_refl 1) hcyc
  · obtain ⟨k, hk1, hkf, hit⟩ := ancChain_sound σ fuel p n hmem
    have hcyc : iterParent σ (k + 1) n = some n := by
      have : iterParent σ (1 + k) n = some n := by
        rw [iterParent_add σ 1 k n]
        have h1 : iterParent σ 1 n = some p := by simp [iterParent, hp]
        rw [h1]
        simpa using hit
      rw [Nat.add_comm] at this
      exact this
    exact hA n (k + 1) (by omega) hcyc

lemma resolveRect_preserveUpdate (pr : Vector4) (aMin aMax : Vector2)
    (r : RectTransform) :
    resolveRect pr (preserveUpdate pr aMin aMax r) = resolveRect pr r := by
  show resolveRect pr (preserveUpdate pr aMin aMax r) =
    ⟨(resolveRect pr r).x, (resolveRect pr r).y,
     (resolveRect pr r).z, (resolveRect pr r).w⟩
  unfold preserveUpdate
  unfold resolveRect
  simp only []
  by_cases hx : aMin.x = aMax.x <;> by_cases hy : aMin.y = aMax.y <;>
    simp only [if_pos, if_neg, hx, hy, if_true, if_false, Vector4.mk.injEq] <;>
    refine ⟨by ring, by ring, by ring, by ring⟩

/-- C7: on an acyclic tree, `SetAnchorPreset(preset, preservePosition =
true)` leaves `GetWorldRect()` exactly unchanged for every starting
configuration and every preset (offsets/position/size are recomputed to
compensate for the anchor change), while `preservePosition = false`
resets the stored offsets to zero. -/
theorem anchorPreset_world_rect (σ : UITree) (n : ℕ) (preset : AnchorPreset)
    (hacyc : AcyclicB σ = true) (hn : n < σ.length) :
    GetWorldRect (SetAnchorPreset σ n preset true) n = GetWorldRect σ n ∧
    nodeOffsets (SetAnchorPreset σ n preset false) n = some ⟨0, 0, 0, 0⟩ := by
  have hg : σ[n]? = some σ[n] := List.getElem?_eq_getElem hn
  constructor
  · have hform : SetAnchorPreset σ n preset true =
        markDirtyAll (σ.set n (preserveUpdate
          (match σ[n].parent with
            | none => (⟨0, 0, 0, 0⟩ : Vector4)
            | some p => worldRect σ σ.length p)
          (presetAnchors preset).1 (presetAnchors preset).2 σ[n])) n := by
      unfold SetAnchorPreset
      rw [hg]
      rfl
    unfold GetWorldRect
    rw [hform]
    have hlenS : (markDirtyAll (σ.set n (preserveUpdate
        (match σ[n].parent with
          | none => (⟨0, 0, 0, 0⟩ : Vector4)
          | some p => worldRect σ σ.length p)
        (presetAnchors preset).1 (presetAnchors preset).2 σ[n])) n).length =
        σ.length := by
      rw [markDirtyAll_length, List.length_set]
    rw [hlenS, worldRect_markDirtyAll]
    cases hp : σ[n].parent with
    | none =>
        have hupp : (preserveUpdate (⟨0, 0, 0, 0⟩ : Vector4)
            (presetAnchors preset).1 (presetAnchors preset).2 σ[n]).parent =
            σ[n].parent := rfl
        unfold worldRect
        rw [List.getElem?_set_self hn, hg]
        simp only []
        rw [hupp, hp]
        exact resolveRect_preserveUpdate _ _ _ _
    | some p =>
        have hupp : (preserveUpdate (worldRect σ σ.length p)
            (presetAnchors preset).1 (presetAnchors preset).2 σ[n]).parent =
            σ[n].parent := rfl
        have hentry : ∀ m, m ≠ n →
            (σ.set n (preserveUpdate (worldRect σ σ.length p)
              (presetAnchors preset).1 (presetAnchors preset).2 σ[n]))[m]? = σ[m]? :=
          fun m hm => List.getElem?_set_ne (fun he => hm he.symm)
        have hparS : ∀ m, parentOf (σ.set n (preserveUpdate (worldRect σ σ.length p)
            (presetAnchors preset).1 (presetAnchors preset).2 σ[n])) m =
            parentOf σ m := by
          intro m
          by_cases hmn : m = n
          · subst hmn
            unfold parentOf
            rw [List.getElem?_set_self hn, hg]
            exact hupp
          · unfold parentOf
            rw [hentry m hmn]
        have hpσ : parentOf σ n = some p := by
          unfold parentOf
          rw [hg]
          exact hp
        have hnochain := parent_not_in_own_chain σ hacyc n p hpσ σ.length
        have hnochain2 : ¬ (n = p ∨ n ∈ ancChain (σ.set n (preserveUpdate
            (worldRect σ σ.length p)
            (presetAnchors preset).1 (presetAnchors preset).2 σ[n])) σ.length p) := by
          rw [ancChain_congr _ σ hparS σ.length p]
          exact hnochain
        unfold worldRect
        rw [List.getElem?_set_self hn, hg]
        simp only []
        rw [hupp, hp]
        simp only []
        rw [worldRect_avoid _ σ n hentry σ.length p hnochain2]
        exact resolveRect_preserveUpdate _ _ _ _
  · have hform2 : SetAnchorPreset σ n preset false =
        markDirtyAll (σ.set n { σ[n] with
          anchorMin := (presetAnchors preset).1
          anchorMax := (presetAnchors preset).2
          offsets := ⟨0, 0, 0, 0⟩ }) n := by
      unfold SetAnchorPreset
      rw [hg]
      rfl
    unfold nodeOffsets
    rw [hform2, getElem?_markDirtyAll,
      List.getElem?_set_self hn]
    simp [inSubtree]

/-- Witness for C7: on the one-node tree, `SetAnchorPreset(TopLeft)` with
position preservation leaves the world rectangle unchanged, and without
it zeroes the offsets. -/
theorem anchorPreset_world_rect_witness :
    GetWorldRect (SetAnchorPreset [{}] 0 AnchorPreset.TopLeft true) 0 =
      GetWorldRect [{}] 0 ∧
    nodeOffsets (SetAnchorPreset [{}] 0 AnchorPreset.TopLeft false) 0 =
      some ⟨0, 0, 0, 0⟩ :=
  anchorPreset_world_rect [{}] 0 AnchorPreset.TopLeft (by decide) (by decide)

end PLE
